import Mathlib

/-!
Verification of the paged storage engine (package `pages`): a shallow
embedding of `entry.go`, `tieredpage.go` and the `pageTable` file, with
theorems settling the specification claims about cursor I/O, the tiered
page-table tree, truncation, defragmentation, recovery and the recycler.

Machine integers (`int64`, `uint64`) are modelled as `ℕ`/`ℤ`; wherever the
Go code can wrap a `uint64` past zero the model reduces modulo `2 ^ 64`
explicitly.  Go `map[uint64]T` values are modelled as association lists with
Go's observable semantics (lookup, overwrite, delete, `len`); all states the
theorems quantify over keep the key lists duplicate-free, which makes
`List.length` agree with Go's `len`.
-/

namespace Pages

/-- Modelled from the spec: `pageSize` is a compile-time constant defined in a
file of this repository that is not under `src/` (§3: "a small power of two
such as 4096"; §8 fixes 4096). -/
def pageSize : ℕ := 4096

/-- Modelled from the spec: `numPageEntries` (the fanout) is a compile-time
constant defined outside `src/`; §8 fixes 504. -/
def numPageEntries : ℕ := 504

/-- One past the largest `uint64`; used to model unsigned wrap-around. -/
def U64 : ℕ := 2 ^ 64

/-! ### Association-list model of Go maps -/

/-- Lookup in a Go map. -/
def mapGet {α : Type} (m : List (ℕ × α)) (k : ℕ) : Option α :=
  match m.find? (fun kv => kv.1 = k) with
  | some kv => some kv.2
  | none => none

/-- Assignment `m[k] = v` in a Go map: overwrite if present, add otherwise. -/
def mapSet {α : Type} (m : List (ℕ × α)) (k : ℕ) (v : α) : List (ℕ × α) :=
  if (mapGet m k).isSome then
    m.map (fun kv => if kv.1 = k then (k, v) else kv)
  else
    m ++ [(k, v)]

/-- Deletion `delete(m, k)` in a Go map. -/
def mapDel {α : Type} (m : List (ℕ × α)) (k : ℕ) : List (ℕ × α) :=
  m.filter (fun kv => kv.1 ≠ k)

/-- Go's `len` on a map; equals the association-list length because every
state considered keeps keys duplicate-free. -/
def mapLen {α : Type} (m : List (ℕ × α)) : ℕ := m.length

/-- The slots `0, 1, …` of a map that are populated, in slot order; on the
dense maps the tree maintains this is all of the map's values. -/
def slotVals {α : Type} (m : List (ℕ × α)) : List α :=
  (List.range (mapLen m)).filterMap (fun i => mapGet m i)

/-- Decides that slots `0 .. len-1` are all populated (the property Go's
`marshal` needs so that `childTables[i]`/`childPages[i]` is non-nil for every
`i < numEntries`).  On maps with duplicate-free keys — and every map in this
model is built from `[]` by `mapSet`/`mapDel`, which preserve that — having
every key below the length is equivalent, by pigeonhole, to every slot
`i < len` being populated. -/
def denseB {α : Type} (m : List (ℕ × α)) : Bool :=
  m.all (fun kv => kv.1 < mapLen m)

/-- Duplicate-freedom of the key list. -/
def keysNodupB {α : Type} (m : List (ℕ × α)) : Bool :=
  ((m.map Prod.fst).Nodup : Prop) |> decide

/-! ### Physical pages and the entry-observable state

`physicalpage.go` is part of this repository but not under `src/`; its two
operations are modelled from the spec (§4.1).  An entry's observable state
for the cursor operations of `entry.go` is the backing file (`disk`), the
ordered list of data pages with their `usedSize`, the entry's `usedSize`,
and the page allocator's high-water mark. -/

/-- A physical data page: its file offset and its `usedSize`. -/
structure EPage where
  off : ℕ
  used : ℕ
deriving DecidableEq, Repr

/-- The entry-observable engine state used by the `entry.go` model: the
backing file content, the entry's `pages` slice, `usedSize`, and the next
fresh file offset the allocator would hand out (allocation is modelled from
the spec: the page manager extends the file by `pageSize`). -/
structure EState where
  disk : ℕ → ℕ
  epages : List EPage
  usedSize : ℕ
  nextAlloc : ℕ

/-- Modelled from the spec: `physicalPage.readAt` (§4.1) reads at most
`PAGE_SIZE - off` bytes, never crossing the page boundary, and signals
end-of-used-region; it delivers `min (len buf) (used - off)` bytes when
`off < used` and the EOF indication (`none`) when `off ≥ used`. -/
def ppReadAt (pg : EPage) (bufLen off : ℕ) : Option ℕ :=
  if pg.used ≤ off then none else some (min bufLen (pg.used - off))

/-- Modelled from the spec: `physicalPage.writeAt` (§4.1) writes at most
`PAGE_SIZE - off` bytes at `off` and updates `used := max used (off + n)`.
Returns the byte count written. -/
def ppWriteAt (bufLen off : ℕ) : ℕ :=
  min bufLen (pageSize - off)

/-! ### `Entry.seek` and `Entry.Seek` (entry.go lines 114–167) -/

/-- The helper `Entry.seek`: resolves `base + offset`, errors on a negative
result, otherwise produces the new `(cursorPage, cursorOff)` pair, clamping
to the EOF sentinel `(len(pages), 0)` when the page index reaches
`len(pages)`.  `none` models the returned error. -/
def seekAux (numPages cp co : ℕ) (offset : ℤ) : Option (ℕ × ℕ) :=
  if ((cp * pageSize + co : ℕ) : ℤ) + offset < 0 then none
  else if numPages ≤ (((cp * pageSize + co : ℕ) : ℤ) + offset).toNat / pageSize then
    some (numPages, 0)
  else some ((((cp * pageSize + co : ℕ) : ℤ) + offset).toNat / pageSize,
             (((cp * pageSize + co : ℕ) : ℤ) + offset).toNat % pageSize)

/-- The three `whence` values accepted by `Entry.Seek`. -/
inductive Whence : Type where
  | start
  | current
  | seekEnd
deriving DecidableEq, Repr

/-- The cursor base `Entry.Seek` starts from for each `whence`. -/
def seekBase (st : EState) (cp co : ℕ) : Whence → ℕ × ℕ
  | .start => (0, 0)
  | .current => (cp, co)
  | .seekEnd => (st.epages.length, 0)

/-- `Entry.Seek`: on success the cursor fields are overwritten and the new
absolute offset `cursorPage * pageSize + cursorOff` is returned; on error
the cursor fields are left untouched and `0` is returned with the error. -/
def entrySeek (st : EState) (cp co : ℕ) (offset : ℤ) (whence : Whence) :
    (ℕ × ℕ) × Option ℤ :=
  match seekAux st.epages.length (seekBase st cp co whence).1
      (seekBase st cp co whence).2 offset with
  | none => ((cp, co), none)
  | some (cp2, co2) => ((cp2, co2), some ((cp2 * pageSize + co2 : ℕ) : ℤ))

/-! ### `Entry.read` / `Entry.Read` / `Entry.ReadAt` (entry.go lines 43–109)

The caller's buffer is represented by its length `L` and, in a successful
result, by the function giving the byte finally stored at each buffer index.
`copy(p[copyDest:copyDest+bytesRead], readData)` requires
`copyDest + bytesRead ≤ cap p`; for a caller buffer with `cap = len` an
overrun is a Go slice-bounds panic, modelled as `.panicCopy`. -/

/-- Result of the `Entry.read` loop. -/
inductive RRes : Type where
  | ok (n : ℕ) (out : ℕ → ℕ) (cp co : ℕ)
  | eof
  | negOff
  | panicCopy
  | nofuel

/-- Constructor tag of a read result, for decidable statements. -/
def RRes.tag : RRes → ℕ
  | .ok _ _ _ _ => 0
  | .eof => 1
  | .negOff => 2
  | .panicCopy => 3
  | .nofuel => 4

/-- Returned byte count of a successful read. -/
def RRes.count : RRes → Option ℕ
  | .ok n _ _ _ => some n
  | _ => none

/-- The bytes a successful read of `m` bytes placed in the caller's buffer. -/
def RRes.bytes (r : RRes) (m : ℕ) : Option (List ℕ) :=
  match r with
  | .ok _ out _ _ => some ((List.range m).map out)
  | _ => none

/-- The loop of `Entry.read`: while bytes remain, stop at the page-count
bound, read from the current page (`readAt` is always handed the whole
`readData` buffer of length `L`), subtract, advance the cursor with `seek`
semantics, copy into the caller's buffer.  A page-read error returns
`(0, err)` discarding everything copied so far, exactly as the source does. -/
def readGo (st : EState) (L : ℕ) :
    (fuel : ℕ) → (cp co : ℕ) → (btr : ℤ) → (cd : ℕ) → (out : ℕ → ℕ) → RRes
  | 0, _, _, _, _, _ => .nofuel
  | fuel + 1, cp, co, btr, cd, out =>
    if btr ≤ 0 then (if cd = 0 then .eof else .ok cd out cp co)
    else if st.epages.length ≤ cp then (if cd = 0 then .eof else .ok cd out cp co)
    else
      match st.epages[cp]? with
      | none => .nofuel
      | some pg =>
        match ppReadAt pg L co with
        | none => .eof
        | some n =>
          match seekAux st.epages.length cp co (n : ℤ) with
          | none => .nofuel
          | some (cp2, co2) =>
            if L < cd + n then .panicCopy
            else
              readGo st L fuel cp2 co2 (btr - n) (cd + n)
                (fun j => if cd ≤ j ∧ j < cd + n then st.disk (pg.off + co + (j - cd)) else out j)

/-- `Entry.read`: the empty-entry EOF check followed by the loop.  The loop
runs at most `L` iterations (each one consumes at least one byte), so fuel
`L + 1` is sufficient whenever the loop terminates at all. -/
def entryRead (st : EState) (L cp co : ℕ) : RRes :=
  if st.epages.length = 0 then .eof
  else readGo st L (L + 1) cp co (L : ℤ) 0 (fun _ => 0)

/-- `Entry.ReadAt`: seek from the beginning of the entry, then read. -/
def entryReadAt (st : EState) (L : ℕ) (off : ℤ) : RRes :=
  match seekAux st.epages.length 0 0 off with
  | none => .negOff
  | some (cp, co) => entryRead st L cp co

/-! ### `Entry.write` / `Entry.Write` / `Entry.WriteAt` (entry.go lines 196–302)

A Go byte slice `p` is modelled by its length and its contents as a function
of the index (`Buf`).  The final `ep.addPages(addedPages, byteIncrease)`
call (entryPage.addPages, tieredpage.go lines 63–97) is modelled in two
layers.  Its effect on the entry-observable state is part of the loop
result below: the `addedBytes == 0` early return, the length sanity check
`nextIndex() + len(pages) == len(ep.pages)` (which panics otherwise), and
the `usedSize` increment.  Its per-page `insertPage` calls act on the
entry's page-table tree; `entryWriteAtT` further below composes them on top
of the loop, so their failures are observable in the full `WriteAt` result
(they are reachable exactly when the loop appended pages). -/

/-- A byte slice: length plus contents by index. -/
structure Buf where
  len : ℕ
  byteAt : ℕ → ℕ

/-- Result of the `Entry.write` loop. -/
inductive WRes : Type where
  | ok (n : ℕ) (st : EState) (cp co : ℕ)
  | panicAdd
  | negOff
  | nofuel

/-- Constructor tag of a write result. -/
def WRes.tag : WRes → ℕ
  | .ok _ _ _ _ => 0
  | .panicAdd => 1
  | .negOff => 2
  | .nofuel => 3

/-- Observable metadata of a successful write: returned count, the pages
slice with its `usedSize`s, and the entry's `usedSize`. -/
def WRes.meta : WRes → Option (ℕ × List EPage × ℕ)
  | .ok n st _ _ => some (n, st.epages, st.usedSize)
  | _ => none

/-- The state after a successful write, if any. -/
def WRes.state : WRes → Option EState
  | .ok _ st _ _ => some st
  | _ => none

/-- The backing-file content after `physicalPage.writeAt` wrote the `n`
bytes `p[wc:wc+n]` to page `pg` at intra-page offset `off`. -/
def diskAfterWrite (disk : ℕ → ℕ) (pg : EPage) (p : Buf) (wc off n : ℕ)
    (a : ℕ) : ℕ :=
  if pg.off + off ≤ a ∧ a < pg.off + off + n then
    p.byteAt (wc + (a - (pg.off + off)))
  else disk a

/-- The loop of `Entry.write`: detect the append condition and restart once
from the backed-up cursor (the lock upgrade), allocate pages on demand
(appending them to `pages` and counting them in `addedPages`), write through
`physicalPage.writeAt` tracking `byteIncrease`, advance with `seek`
semantics, and finish with the entry-observable part of `addPages`
(zero-check, length sanity check, `usedSize` bump); `addPages`' tree
insertions are layered on top in `entryWriteAtT`. -/
def writeGo (p : Buf) :
    (fuel : ℕ) → EState → (app : Bool) → (bcp bco cp co : ℕ) → (btw : ℤ) →
    (wc byteInc added : ℕ) → WRes
  | 0, _, _, _, _, _, _, _, _, _, _ => .nofuel
  | fuel + 1, st, app, bcp, bco, cp, co, btw, wc, byteInc, added =>
    if btw ≤ 0 then
      if byteInc = 0 then .ok p.len st cp co
      else if st.usedSize / pageSize + added ≠ st.epages.length then .panicAdd
      else .ok p.len { st with usedSize := st.usedSize + byteInc } cp co
    else if ¬ app ∧ (st.epages.length ≤ cp ∨
        (cp + 1 = st.epages.length ∧
          (co : ℤ) + btw > ((st.epages.getD cp ⟨0, 0⟩).used : ℤ))) then
      writeGo p fuel st true bcp bco bcp bco (p.len : ℤ) 0 0 0
    else if st.epages.length ≤ cp then
      let newPg : EPage := ⟨st.nextAlloc, 0⟩
      let st2 : EState :=
        { st with epages := st.epages ++ [newPg], nextAlloc := st.nextAlloc + pageSize }
      if st2.epages.length ≤ cp then
        writeGo p fuel
          { st2 with epages := st2.epages.dropLast ++ [⟨newPg.off, pageSize⟩] }
          app bcp bco cp co btw wc (byteInc + pageSize) (added + 1)
      else writeGo p fuel st2 app bcp bco cp co btw wc byteInc (added + 1)
    else
      match st.epages[cp]? with
      | none => .nofuel
      | some pg =>
        let n := ppWriteAt (p.len - wc) co
        let used2 := max pg.used (co + n)
        let st2 : EState :=
          { st with disk := diskAfterWrite st.disk pg p wc co n,
                    epages := st.epages.set cp ⟨pg.off, used2⟩ }
        match seekAux st2.epages.length cp co (n : ℤ) with
        | none => .nofuel
        | some (cp2, co2) =>
          writeGo p fuel st2 app bcp bco cp2 co2 (btw - (n : ℤ)) (wc + n)
            (byteInc + (used2 - pg.used)) added

/-- `Entry.write` at a given cursor.  Each write iteration consumes at least
one byte and allocation iterations alternate with writes, so fuel
`2 * len p + 4` covers every terminating run. -/
def entryWrite (st : EState) (p : Buf) (cp co : ℕ) : WRes :=
  writeGo p (2 * p.len + 4) st false cp co cp co (p.len : ℤ) 0 0 0

/-- `Entry.WriteAt`: seek from the beginning of the entry, then write —
without the tree insertions of the final `addPages` (see `entryWriteAtT`
for the full call; the two agree whenever no pages were appended). -/
def entryWriteAt (st : EState) (p : Buf) (off : ℤ) : WRes :=
  match seekAux st.epages.length 0 0 off with
  | none => .negOff
  | some (cp, co) => entryWrite st p cp co

/-! ### Concrete states used by the entry-level claim evaluations -/

/-- An entry holding 8192 bytes in two full pages; the backing file holds
byte value `a` at offset `a`. -/
def stTwoFull : EState := ⟨fun a => a, [⟨4096, 4096⟩, ⟨8192, 4096⟩], 8192, 12288⟩

/-- An entry holding 5 bytes in one page. -/
def stFiveBytes : EState := ⟨fun a => a, [⟨4096, 5⟩], 5, 8192⟩

/-- An entry holding 10 bytes in one page. -/
def stTenBytes : EState := ⟨fun a => a, [⟨4096, 10⟩], 10, 8192⟩

/-- A 4097-byte buffer of sevens. -/
def bufBig : Buf := ⟨4097, fun _ => 7⟩

/-- C5.  For the entry `stTwoFull` (8192 stored bytes), writing the
4097-byte buffer `bufBig` at offset 0 succeeds and returns `len p = 4097`,
but the subsequent `ReadAt(len p, 0)` does not return `p`: its second loop
iteration reads `min (len p) PAGE_SIZE = 4096` bytes from the second page
although only `4097 - 4096 = 1` byte of the request remains, so the copy
into the caller's buffer overruns it (a Go slice-bounds panic).  This
refutes the round-trip claim at a concrete input. -/
theorem write_read_roundtrip_fails :
    ((entryWriteAt stTwoFull bufBig 0).meta.map (fun m => m.1) = some 4097) ∧
    ((entryWriteAt stTwoFull bufBig 0).state.map
        (fun s2 => (entryReadAt s2 4097 0).tag) = some RRes.panicCopy.tag) := by
  decide

/-- C8.  Reading 10 bytes from the 5-byte entry `stFiveBytes` copies the 5
available bytes and then hits the end-of-used-region indication on the next
loop iteration, whereupon `read` returns `(0, io.EOF)` — not the
`(5, nil)` the claim requires for a short read ending at EOF.  The second
conjunct shows the 5 bytes are really there (an exact-length read returns
them). -/
theorem read_short_at_eof_loses_bytes :
    (entryRead stFiveBytes 10 0 0).tag = RRes.eof.tag ∧
    (entryRead stFiveBytes 5 0 0).count = some 5 := by
  decide

/-- C10 counterexample.  For the entry `stTenBytes` (size 10, one page) and
offset `100 > 10`, the internal seek resolves to `(0, 100)` — inside the
existing page, not the end-of-entry sentinel `(len(pages), 0) = (1, 0)` —
so the write starts at offset 100 creating an unwritten gap, and the final
`addPages` bookkeeping panics on its length sanity check
(`usedSize/pageSize + len(added) = 0 ≠ 1 = len(pages)`) instead of
reporting success. -/
theorem writeAt_beyond_size_not_clamped :
    seekAux stTenBytes.epages.length 0 0 100 = some (0, 100) ∧
    (entryWriteAt stTenBytes ⟨1, fun _ => 7⟩ 100).tag = WRes.panicAdd.tag := by
  decide

/-- The absolute byte offset `Entry.Seek` resolves for a given base cursor,
`whence` and delta. -/
def resolvedOff (st : EState) (cp co : ℕ) (delta : ℤ) (w : Whence) : ℤ :=
  (((seekBase st cp co w).1 * pageSize + (seekBase st cp co w).2 : ℕ) : ℤ) + delta

/-- C6.  `Seek(delta, whence)` errors exactly when the resolved absolute
byte offset is negative, and on that error leaves the cursor unchanged;
otherwise the cursor becomes `(len(pages), 0)` if the resolved page index
meets or exceeds `len(pages)` and `(resolved / PAGE_SIZE,
resolved % PAGE_SIZE)` otherwise, and the returned offset is
`cursorPage * PAGE_SIZE + cursorOff`. -/
theorem entrySeek_spec (st : EState) (cp co : ℕ) (delta : ℤ) (w : Whence) :
    ((entrySeek st cp co delta w).2 = none ↔ resolvedOff st cp co delta w < 0) ∧
    (resolvedOff st cp co delta w < 0 → (entrySeek st cp co delta w).1 = (cp, co)) ∧
    (0 ≤ resolvedOff st cp co delta w →
      (entrySeek st cp co delta w).1 =
        (if st.epages.length ≤ (resolvedOff st cp co delta w).toNat / pageSize
          then (st.epages.length, 0)
          else ((resolvedOff st cp co delta w).toNat / pageSize,
                (resolvedOff st cp co delta w).toNat % pageSize)) ∧
      (entrySeek st cp co delta w).2 =
        some (((entrySeek st cp co delta w).1.1 * pageSize +
               (entrySeek st cp co delta w).1.2 : ℕ) : ℤ)) := by
  by_cases h : resolvedOff st cp co delta w < 0
  · unfold resolvedOff at h
    unfold entrySeek seekAux
    rw [if_pos h]
    unfold resolvedOff
    simp [h, not_lt.mp, le_of_lt]
    omega
  · unfold resolvedOff at h
    unfold entrySeek seekAux
    rw [if_neg h]
    by_cases h2 : st.epages.length ≤
        ((((seekBase st cp co w).1 * pageSize + (seekBase st cp co w).2 : ℕ) : ℤ) +
          delta).toNat / pageSize
    · rw [if_pos h2]
      unfold resolvedOff
      simp [h, h2]
      push_cast at h h2
      refine ⟨by omega, fun hx => by omega, fun hx => by rw [if_pos h2]⟩
    · rw [if_neg h2]
      unfold resolvedOff
      simp [h, h2]
      push_cast at h h2
      refine ⟨by omega, fun hx => by omega, fun hx => by rw [if_neg h2]⟩

/-! ### The page-table tree (the `pageTable` source file and tieredpage.go)

A `pageTable` is its file offset (`pp.fileOff`), its height, and the two
mutually exclusive Go maps `childTables` / `childPages` (the latter keyed by
slot, valued by the child page's file offset).  Page objects are aliased
between the tree and the tiered page's `pages` slice, so their mutable
`usedSize` lives in a separate map keyed by the (unique) file offset. -/

/-- A `pageTable` node. -/
inductive PTab : Type where
  | mk (ppOff : ℕ) (height : ℕ) (tabs : List (ℕ × PTab)) (pages : List (ℕ × ℕ)) : PTab

/-- File offset of the node's own physical page. -/
def PTab.ppOff : PTab → ℕ | .mk o _ _ _ => o

/-- Height of the node. -/
def PTab.height : PTab → ℕ | .mk _ h _ _ => h

/-- The `childTables` map. -/
def PTab.tabs : PTab → List (ℕ × PTab) | .mk _ _ t _ => t

/-- The `childPages` map (slot to page file offset). -/
def PTab.pages : PTab → List (ℕ × ℕ) | .mk _ _ _ p => p

/-- The shared mutable state of a tiered page: `usedSize`, the ordered
`pages` slice (file offsets), each page's `usedSize` keyed by file offset,
and the allocator's next fresh offset. -/
structure GState where
  usedSize : ℕ
  pagesL : List ℕ
  usedOf : List (ℕ × ℕ)
  nextAlloc : ℕ
deriving DecidableEq, Repr

/-- A page's `usedSize`, read through the aliasing map. -/
def usedOfGet (gs : GState) (off : ℕ) : ℕ := (mapGet gs.usedOf off).getD 0

/-- `maxPages` (tieredpage.go 200–202): a tree of the given height addresses
`numPageEntries ^ (height + 1)` pages (the source computes the power in
floating point; the values in range are exact). -/
def maxPages (height : ℕ) : ℕ := numPageEntries ^ (height + 1)

/-! ### `insertPage` (tieredpage.go 206–255) with `extendPageTableTree` -/

/-- Result of an insertion: the updated root and allocator mark, or a Go
panic (the childPages-full and gap sanity checks, or `marshal`
dereferencing a missing slot during `writeToDisk`), or exhausted fuel. -/
inductive IRes : Type where
  | ok (t : PTab) (na : ℕ)
  | panicGo
  | nofuelI

/-- Constructor tag of an insertion result. -/
def IRes.tag : IRes → ℕ
  | .ok _ _ => 0
  | .panicGo => 1
  | .nofuelI => 2

/-- The root-growth loop of `insertPage`: extend the tree with fresh roots
(`extendPageTableTree`: a new node one level up whose slot 0 is the old
root) until `index < maxPages(root.height)`.  Fuel `index + 2` always
suffices because the addressable range at least doubles per step. -/
def growTree : (fuel : ℕ) → PTab → (na index : ℕ) → PTab × ℕ
  | 0, t, na, _ => (t, na)
  | fuel + 1, t, na, index =>
    if index < maxPages t.height then (t, na)
    else growTree fuel (.mk na (t.height + 1) [(0, t)] []) (na + pageSize) index

/-- The height-0 tail of `insertPage`: the childPages-full and gap sanity
checks (panics), the slot assignment at `index % FANOUT`, and the leaf's
`writeToDisk` (whose `marshal` panics on a gapped map). -/
def insertLeaf (t : PTab) (origIndex pOff na : ℕ) : IRes :=
  if mapLen t.pages = numPageEntries then .panicGo
  else if 0 < mapLen t.pages ∧
      (mapGet t.pages ((origIndex % numPageEntries + (U64 - 1)) % U64)).isNone then
    .panicGo
  else
    if denseB (mapSet t.pages (origIndex % numPageEntries) pOff) then
      .ok (PTab.mk t.ppOff t.height t.tabs
        (mapSet t.pages (origIndex % numPageEntries) pOff)) na
    else .panicGo

/-- The descent loop of `insertPage`: at an interior node the slot is
`pageIndex / maxPages(height - 1)` and `pageIndex` is divided by the fanout;
missing interior nodes are created (and the parent persisted — `marshal`
panics if the linked slot leaves a gap); at the leaf the two sanity checks
of `insertLeaf` run (the gap check index `index % FANOUT - 1` is a `uint64`
and wraps) and the page is installed at `index % FANOUT`.  `fh` is the
descent counter; on the trees the engine builds, `fh = height + 1` always
reaches the leaf. -/
def insertDescend : (fh : ℕ) → PTab → (pageIndex origIndex pOff na : ℕ) → IRes
  | 0, t, _, origIndex, pOff, na =>
    if 0 < t.height then .nofuelI else insertLeaf t origIndex pOff na
  | fh + 1, t, pageIndex, origIndex, pOff, na =>
    if 0 < t.height then
      match mapGet t.tabs (pageIndex / maxPages (t.height - 1)) with
      | some c =>
        match insertDescend fh c (pageIndex / numPageEntries) origIndex pOff na with
        | .ok c2 na2 =>
          .ok (PTab.mk t.ppOff t.height
            (mapSet t.tabs (pageIndex / maxPages (t.height - 1)) c2) t.pages) na2
        | r => r
      | none =>
        if denseB (mapSet t.tabs (pageIndex / maxPages (t.height - 1))
            (PTab.mk na (t.height - 1) [] [])) then
          match insertDescend fh (PTab.mk na (t.height - 1) [] [])
              (pageIndex / numPageEntries) origIndex pOff (na + pageSize) with
          | .ok c2 na2 =>
            .ok (PTab.mk t.ppOff t.height
              (mapSet (mapSet t.tabs (pageIndex / maxPages (t.height - 1))
                (PTab.mk na (t.height - 1) [] []))
                (pageIndex / maxPages (t.height - 1)) c2) t.pages) na2
          | r => r
        else .panicGo
    else insertLeaf t origIndex pOff na

/-- `insertPage`: grow, then descend. -/
def insertPageM (root : PTab) (na index pOff : ℕ) : IRes :=
  match growTree (index + 2) root na index with
  | (root2, na2) => insertDescend (root2.height + 1) root2 index index pOff na2

/-- The interior slots (root first) and the final leaf slot the descent loop
of `insertPage` takes, transcribed from the source: at a node of height
`h + 1` the slot is `pageIndex / maxPages h` and the running index is then
divided by the fanout; the leaf slot is the original `index % FANOUT`. -/
def codeSlots : (h : ℕ) → (pageIndex origIndex : ℕ) → List ℕ
  | 0, _, origIndex => [origIndex % numPageEntries]
  | h + 1, pageIndex, origIndex =>
    (pageIndex / maxPages h) :: codeSlots h (pageIndex / numPageEntries) origIndex

/-- The slots the claim (spec §4.3) prescribes for the same descent: at
height `h > 0` the slot is `index / FANOUT ^ h` reduced modulo the fanout,
and `index % FANOUT` at the leaf. -/
def specSlots : (h : ℕ) → (index : ℕ) → List ℕ
  | 0, index => [index % numPageEntries]
  | h + 1, index =>
    ((index / numPageEntries ^ (h + 1)) % numPageEntries) :: specSlots h index

/-- C1.  Inserting at index `FANOUT² = 254016` into a fresh tiered page:
the growth loop correctly stops at root height 2, and the spec's descent
enters slot 1 at the root and slot 0 at the height-1 node, but the code's
descent divides the already-divided index by `maxPages(height - 1)` again
and picks slot 1 at the height-1 node.  Following the code's slots gapped
interior maps arise, and the model insertion aborts in `writeToDisk`
(`marshal` dereferences the missing slot 0 — a nil-pointer panic in Go).  -/
theorem insertPage_wrong_interior_slot :
    (growTree (254016 + 2) (PTab.mk 0 0 [] []) 10000000 254016).1.height = 2 ∧
    codeSlots 2 254016 254016 = [1, 1, 0] ∧
    specSlots 2 254016 = [1, 0, 0] ∧
    codeSlots 2 254016 254016 ≠ specSlots 2 254016 ∧
    (insertPageM (PTab.mk 0 0 [] []) 10000000 254016 77).tag = IRes.panicGo.tag := by
  decide

/-! ### Recovery (tieredpage.go 304–428)

The backing file is abstracted to the map from a node page's offset to its
decoded child-offset list (`readPageTable` / `unmarshalPageTable`). -/

/-- Result of `recursiveRecovery`: the recovered subtree, the in-order data
pages with their assigned `usedSize`s, and the remaining byte count. -/
inductive RecRes : Type where
  | ok (t : PTab) (pgs : List (ℕ × ℕ)) (rem : ℕ)
  | diskErr
  | panicRec

/-- One level of the child loop of `recursiveRecovery`, parameterized by
the recursive call used for height `h - 1` children: attach each decoded
child in order; child slot keys are assigned exactly as the source does —
`uint64(len(map) - 1)` evaluated before the insertion, which wraps to
`2 ^ 64 - 1` for the first child.  Leaf children get `usedSize = PAGE_SIZE`
while more than a page of bytes remains, and the remainder otherwise. -/
def recoverKids (rec : ℕ → ℕ → RecRes) (h : ℕ) :
    PTab → List ℕ → ℕ → RecRes
  | parent, [], rem => .ok parent [] rem
  | parent, eoff :: rest, rem =>
    if 0 < h then
      match rec eoff rem with
      | .ok child cpgs rem2 =>
        match recoverKids rec h
            (PTab.mk parent.ppOff parent.height
              (mapSet parent.tabs ((mapLen parent.tabs + (U64 - 1)) % U64) child)
              parent.pages)
            rest rem2 with
        | .ok parent3 pgs rem3 => .ok parent3 (cpgs ++ pgs) rem3
        | r => r
      | r => r
    else
      match recoverKids rec h
          (PTab.mk parent.ppOff parent.height parent.tabs
            (mapSet parent.pages ((mapLen parent.pages + (U64 - 1)) % U64) eoff))
          rest (if pageSize < rem then rem - pageSize else 0) with
      | .ok parent3 pgs rem3 =>
        .ok parent3 ((eoff, if pageSize < rem then pageSize else rem) :: pgs) rem3
      | r => r

/-- A recovery level that reports missing fuel; `recursiveRecovery` can only
recurse below height 0 through its own sanity panic, so this is unreachable
on the heights the descriptors store. -/
def recNoFuel : ℕ → ℕ → RecRes := fun _ _ => .panicRec

/-- `recoverTree` / `recursiveRecovery` (tieredpage.go 338–428): read the
node's entries (with the `numEntries ≤ FANOUT` sanity check of
`unmarshalPageTable`), then attach the children in order via `recoverKids`,
recursing with height `h - 1`. -/
def recoverGo (disk : List (ℕ × List ℕ)) : (h : ℕ) → (off rem : ℕ) → RecRes
  | 0, off, rem =>
    match mapGet disk off with
    | none => .diskErr
    | some entries =>
      if numPageEntries < entries.length then .panicRec
      else recoverKids recNoFuel 0 (PTab.mk off 0 [] []) entries rem
  | h + 1, off, rem =>
    match mapGet disk off with
    | none => .diskErr
    | some entries =>
      if numPageEntries < entries.length then .panicRec
      else recoverKids (recoverGo disk h) (h + 1) (PTab.mk off (h + 1) [] [])
        entries rem

/-- C3.  Recovering a single-page tree (root node at offset 50 listing the
one data page at offset 70, `used_size` 5): the recovered leaf keys its only
child at slot `uint64(0 - 1) = 2 ^ 64 - 1`, not slot 0 — the populated slots
are not the dense prefix `0..k` the claim asserts for every operation. -/
theorem recovery_slots_not_dense :
    (match recoverGo [(50, [70])] 0 50 5 with
     | .ok t pgs rem => some (t.pages.map Prod.fst, denseB t.pages, pgs, rem)
     | _ => none) = some ([U64 - 1], false, [(70, 5)], 0) := by
  decide

/-! ### `defrag` (tieredpage.go 144–179) -/

/-- Result of `defrag`: the new root and the freed node pages, or the nil
dereference of `childTables[0]` on a gapped single-entry map, or exhausted
fuel (the per-level counter; height + 1 suffices on the engine's trees). -/
inductive DRes : Type where
  | ok (t : PTab) (freed : List ℕ)
  | panicNil
  | nofuelD

/-- The `defrag` loop: while the root is interior with exactly one child,
promote `childTables[0]` and schedule the old root's page for freeing. -/
def defragGo : (fuel : ℕ) → PTab → DRes
  | 0, t => if 0 < t.height ∧ mapLen t.tabs = 1 then .nofuelD else .ok t []
  | fuel + 1, t =>
    if 0 < t.height ∧ mapLen t.tabs = 1 then
      match mapGet t.tabs 0 with
      | none => .panicNil
      | some c =>
        match defragGo fuel c with
        | .ok r freed => .ok r (t.ppOff :: freed)
        | r => r
    else .ok t []

/-! ### `recursiveTruncate` (tieredpage.go 430–517)

Both of its loops run a `uint64` counter downward with the always-true test
`i >= 0`, so after slot 0 the counter wraps to `2 ^ 64 - 1`; the model
decrements modulo `2 ^ 64` exactly as the hardware does.  The loops can only
end by returning, so the model counts iterations with `iterFuel`; on the
well-formed trees the engine builds, `len + 1` iterations always reach a
return (that is the termination claim proved below). -/

/-- Result of `recursiveTruncate`: the `empty` flag, the freed page offsets
in order, the updated subtree and shared state; or the nil dereference of
an unpopulated child slot, a failed sanity check (the rightmost-page
comparison, or indexing an empty `pages` slice), or exhausted iteration
fuel. -/
inductive TRes : Type where
  | ok (empty : Bool) (freed : List ℕ) (t : PTab) (gs : GState)
  | panicSlot
  | panicSanity
  | nofuelT

/-- Constructor tag of a truncation result. -/
def TRes.tag : TRes → ℕ
  | .ok _ _ _ _ => 0
  | .panicSlot => 1
  | .panicSanity => 2
  | .nofuelT => 3

/-- The height-0 loop of `recursiveTruncate`: from slot `i` downward, stop
once `usedSize ≤ size`; a page is truncated in place when less than its
`usedSize` remains to cut, and removed (with the rightmost-page sanity
check against the `pages` slice) otherwise. -/
def truncPagesLoop (size : ℕ) : (iterFuel i : ℕ) → PTab → GState → List ℕ → TRes
  | 0, _, _, _, _ => .nofuelT
  | f + 1, i, t, gs, acc =>
    if gs.usedSize ≤ size then .ok false acc t gs
    else
      match mapGet t.pages i with
      | none => .panicSlot
      | some poff =>
        if gs.usedSize - size < usedOfGet gs poff then
          truncPagesLoop size f ((i + (U64 - 1)) % U64) t
            { gs with usedOf := mapSet gs.usedOf poff
                        (usedOfGet gs poff - (gs.usedSize - size)),
                      usedSize := gs.usedSize - (gs.usedSize - size) } acc
        else
          match gs.pagesL.getLast? with
          | none => .panicSanity
          | some removed =>
            if removed ≠ poff then .panicSanity
            else
              if mapLen (mapDel t.pages i) = 0 then
                .ok true (acc ++ [poff])
                  (PTab.mk t.ppOff t.height t.tabs (mapDel t.pages i))
                  { gs with pagesL := gs.pagesL.dropLast,
                            usedSize := gs.usedSize - usedOfGet gs poff }
              else
                truncPagesLoop size f ((i + (U64 - 1)) % U64)
                  (PTab.mk t.ppOff t.height t.tabs (mapDel t.pages i))
                  { gs with pagesL := gs.pagesL.dropLast,
                            usedSize := gs.usedSize - usedOfGet gs poff }
                  (acc ++ [poff])

/-- The interior loop of `recursiveTruncate`, parameterized by the recursive
call used on child tables: from slot `i` downward, stop once
`usedSize ≤ size`; recurse into the child, and if it came back empty delete
its slot, schedule its node page, and persist the parent (whose `marshal`
dereferences every slot below the new length — `.panicSlot` on a gap). -/
def truncTabsWith (rec : PTab → GState → TRes) (size : ℕ) :
    (iterFuel i : ℕ) → PTab → GState → List ℕ → TRes
  | 0, _, _, _, _ => .nofuelT
  | f + 1, i, t, gs, acc =>
    if gs.usedSize ≤ size then .ok false acc t gs
    else
      match mapGet t.tabs i with
      | none => .panicSlot
      | some c =>
        match rec c gs with
        | .ok true fr c2 gs2 =>
          if denseB (mapDel t.tabs i) then
            if mapLen (mapDel t.tabs i) = 0 then
              .ok true (acc ++ fr ++ [c2.ppOff])
                (PTab.mk t.ppOff t.height (mapDel t.tabs i) t.pages) gs2
            else
              truncTabsWith rec size f ((i + (U64 - 1)) % U64)
                (PTab.mk t.ppOff t.height (mapDel t.tabs i) t.pages) gs2
                (acc ++ fr ++ [c2.ppOff])
          else .panicSlot
        | .ok false fr c2 gs2 =>
          truncTabsWith rec size f ((i + (U64 - 1)) % U64)
            (PTab.mk t.ppOff t.height (mapSet t.tabs i c2) t.pages) gs2 (acc ++ fr)
        | r => r

/-- `recursiveTruncate` by recursion on the height counter `h`: dispatch on
the node's height exactly as the source's two `if` blocks do, giving each
loop `len + 1` iterations of fuel. -/
def truncNodeGo (size : ℕ) : (h : ℕ) → PTab → GState → TRes
  | 0, t, gs =>
    if 0 < t.height then .nofuelT
    else truncPagesLoop size (mapLen t.pages + 1)
      ((mapLen t.pages + (U64 - 1)) % U64) t gs []
  | h + 1, t, gs =>
    if 0 < t.height then
      truncTabsWith (truncNodeGo size h) size (mapLen t.tabs + 1)
        ((mapLen t.tabs + (U64 - 1)) % U64) t gs []
    else truncPagesLoop size (mapLen t.pages + 1)
      ((mapLen t.pages + (U64 - 1)) % U64) t gs []

/-- `recursiveTruncate` on a tree, entered at the tree's own height. -/
def truncNode (size : ℕ) (t : PTab) (gs : GState) : TRes :=
  truncNodeGo size t.height t gs

/-! #### C4: the state `defrag` leaves after truncation to zero -/

/-- A height-1 tree with two single-page leaf tables (the state of an entry
holding two full pages). -/
def treeC4 : PTab :=
  PTab.mk 100 1 [(0, PTab.mk 200 0 [] [(0, 300)]), (1, PTab.mk 210 0 [] [(0, 400)])] []

/-- The shared state matching `treeC4`: 8192 bytes over the two full pages. -/
def gsC4 : GState := ⟨8192, [300, 400], [(300, 4096), (400, 4096)], 10000000⟩

/-- `Truncate(0)` followed by `defrag` on `treeC4`: root height and child
count of the resulting root. -/
def defragC4 : Option (ℕ × ℕ) :=
  match truncNode 0 treeC4 gsC4 with
  | .ok _ _ t2 _ =>
    match defragGo (t2.height + 1) t2 with
    | .ok r _ => some (r.height, mapLen r.tabs)
    | _ => none
  | _ => none

/-- C4 counterexample.  Truncating the two-page entry `treeC4` to size 0
empties both leaf tables; `recursiveTruncate` deletes them but leaves the
root at height 1 with zero children, and `defrag`'s loop condition
(`height > 0 && len(childTables) == 1`) is already false, so the root stays
a childless height-1 node: neither `height = 0` nor `1 < children` holds
after a successful defrag. -/
theorem defrag_root_childless_counterexample :
    defragC4 = some (1, 0) ∧
    defragC4.map (fun rc => decide (rc.1 = 0 ∨ 1 < rc.2)) = some false := by
  decide

/-! ### The recycling page (tieredpage.go 99–138 and 259–302) -/

/-- The recycler: its tree root, the shared tiered-page state, and the
`pagesToFree` buffer. -/
structure RPState where
  root : PTab
  gs : GState
  toFree : List ℕ

/-- `availablePages` (tieredpage.go 182–184). -/
def availablePages (st : RPState) : ℕ := st.toFree.length + st.gs.pagesL.length

/-- Result of `freePage`. -/
inductive FRes : Type where
  | ok (page : ℕ) (st : RPState)
  | err
  | panicF
  | nofuelF

/-- The returned page of a successful `freePage`. -/
def FRes.page : FRes → Option ℕ
  | .ok p _ => some p
  | _ => none

/-- The post-state of a successful `freePage`. -/
def FRes.state : FRes → Option RPState
  | .ok _ st => some st
  | _ => none

/-- `freePage` (tieredpage.go 259–302): error when nothing is available;
pop the tail of `pagesToFree` when the buffer is non-empty; otherwise take
the last page of `pages`, truncate the tree by one page, check the first
truncated page is that page, defrag, and buffer the remaining freed pages.
The deferred `page.usedSize = 0` is applied to the returned page. -/
def freePageM (st : RPState) : FRes :=
  if availablePages st = 0 then .err
  else if 0 < st.toFree.length then
    match st.toFree.getLast? with
    | some p => .ok p { st with toFree := st.toFree.dropLast,
                                gs := { st.gs with usedOf := mapSet st.gs.usedOf p 0 } }
    | none => .panicF
  else
    match st.gs.pagesL.getLast? with
    | none => .panicF
    | some page =>
      match truncNode (st.gs.usedSize - pageSize) st.root st.gs with
      | .ok _ freed root2 gs2 =>
        match freed.head? with
        | none => .panicF
        | some f0 =>
          if f0 ≠ page then .panicF
          else
            match defragGo (root2.height + 1) root2 with
            | .ok root3 freed2 =>
              .ok page { root := root3,
                         gs := { gs2 with usedOf := mapSet gs2.usedOf page 0 },
                         toFree := st.toFree ++ freed.tail ++ freed2 }
            | .panicNil => .panicF
            | .nofuelD => .nofuelF
      | .panicSlot => .panicF
      | .panicSanity => .panicF
      | .nofuelT => .nofuelF

/-- The insertion loop of the recycler's `addPages` (tieredpage.go 113–132):
each page is marked full (`usedSize = PAGE_SIZE`) and inserted at the next
index; the loop aborts on an insertion error.  Descriptor writes touch only
the descriptor page and are not part of the observable state. -/
def rpAddLoop : List ℕ → (index : ℕ) → PTab → (na : ℕ) → List (ℕ × ℕ) →
    Option (PTab × ℕ × List (ℕ × ℕ))
  | [], _, root, na, usedOf => some (root, na, usedOf)
  | p :: rest, index, root, na, usedOf =>
    match insertPageM root na index p with
    | .ok root2 na2 => rpAddLoop rest (index + 1) root2 na2 (mapSet usedOf p pageSize)
    | _ => none

/-- The recycler's `addPages` (tieredpage.go 102–138): recycling is
suspended (the allocator extends the file, which the fresh-offset counter
models), the pages are appended to `pages` up front, inserted one by one
starting at `nextIndex() = usedSize / PAGE_SIZE`, and `usedSize` grows by
`len(pages) * PAGE_SIZE` at the end. -/
def rpAddPagesM (st : RPState) (newPgs : List ℕ) : Option RPState :=
  match rpAddLoop newPgs (st.gs.usedSize / pageSize) st.root st.gs.nextAlloc
      st.gs.usedOf with
  | some (root2, na2, usedOf2) =>
    some { root := root2,
           gs := { usedSize := st.gs.usedSize + newPgs.length * pageSize,
                   pagesL := st.gs.pagesL ++ newPgs,
                   usedOf := usedOf2, nextAlloc := na2 },
           toFree := st.toFree }
  | none => none

/-! #### Association-list map lemmas -/

theorem mapGet_cons {α : Type} (a : ℕ) (b : α) (m : List (ℕ × α)) (k : ℕ) :
    mapGet ((a, b) :: m) k = if a = k then some b else mapGet m k := by
  by_cases h : a = k <;> simp [mapGet, List.find?_cons, h]

theorem mapGet_append_of_none {α : Type} {m1 : List (ℕ × α)} (m2 : List (ℕ × α))
    {k : ℕ} (h : mapGet m1 k = none) : mapGet (m1 ++ m2) k = mapGet m2 k := by
  induction m1 with
  | nil => rfl
  | cons kv rest ih =>
    rw [List.cons_append, ← kv.eta, mapGet_cons] at *
    by_cases hk : kv.1 = k
    · simp [hk] at h
    · simp [hk] at h ⊢
      exact ih h

theorem mapGet_none_of_keys {α : Type} {m : List (ℕ × α)} {k : ℕ}
    (h : ∀ kv ∈ m, kv.1 ≠ k) : mapGet m k = none := by
  induction m with
  | nil => rfl
  | cons kv rest ih =>
    rw [← kv.eta, mapGet_cons]
    rw [if_neg (h kv (by simp))]
    exact ih (fun kv2 h2 => h kv2 (by simp [h2]))

theorem mapSet_of_none {α : Type} {m : List (ℕ × α)} {k : ℕ} (v : α)
    (h : mapGet m k = none) : mapSet m k v = m ++ [(k, v)] := by
  simp [mapSet, h]

/-! #### C7: freeing 505 pages one at a time, then allocating two back -/

/-- The file offset of the `i`-th (0-based) data page freed to the
recycler. -/
def pOff (i : ℕ) : ℕ := (i + 1) * 4096

/-- The recycler root's `childPages` map after `n ≤ FANOUT` frees: pages in
slots `0 .. n-1` in order. -/
def slotMapN (n : ℕ) : List (ℕ × ℕ) := (List.range n).map (fun i => (i, pOff i))

/-- The aliasing `usedSize` map after `n` frees (free pages are full). -/
def usedMapN (n : ℕ) : List (ℕ × ℕ) := (List.range n).map (fun i => (pOff i, 4096))

/-- The recycler state after the first `n ≤ FANOUT` single-page frees. -/
def rpStateN (n : ℕ) : RPState :=
  ⟨PTab.mk 0 0 [] (slotMapN n),
   ⟨n * 4096, (List.range n).map pOff, usedMapN n, 10000000⟩, []⟩

/-- One single-page `addPages` call on the recycler. -/
def rpFreeOne (st : Option RPState) (i : ℕ) : Option RPState :=
  st.bind (fun s => rpAddPagesM s [pOff i])

/-- The sequence "free pages `p1 … pn` one at a time" starting from the
fresh recycler. -/
def rpSeq (n : ℕ) : Option RPState :=
  (List.range n).foldl rpFreeOne (some (rpStateN 0))

theorem mapGet_append_of_some {α : Type} {m1 : List (ℕ × α)} (m2 : List (ℕ × α))
    {k : ℕ} {v : α} (h : mapGet m1 k = some v) : mapGet (m1 ++ m2) k = some v := by
  induction m1 with
  | nil => simp [mapGet] at h
  | cons kv rest ih =>
    rw [List.cons_append, ← kv.eta, mapGet_cons] at *
    by_cases hk : kv.1 = k
    · simp [hk] at h ⊢
      exact h
    · simp [hk] at h ⊢
      exact ih h

theorem mapGet_slotMapN (n k : ℕ) :
    mapGet (slotMapN n) k = if k < n then some (pOff k) else none := by
  induction n with
  | zero => simp [slotMapN, mapGet]
  | succ n ih =>
    rw [slotMapN, List.range_succ, List.map_append, ← slotMapN]
    by_cases hk : k < n
    · have h1 : mapGet (slotMapN n) k = some (pOff k) := by rw [ih]; simp [hk]
      rw [mapGet_append_of_some _ h1]
      simp [Nat.lt_succ_of_lt hk]
    · have h1 : mapGet (slotMapN n) k = none := by rw [ih]; simp [hk]
      rw [mapGet_append_of_none _ h1]
      simp only [List.map_cons, List.map_nil, mapGet_cons]
      by_cases hkn : n = k
      · subst hkn
        simp [Nat.lt_succ_self]
      · have : ¬ (k < n + 1) := by omega
        simp [hkn, this, mapGet]

theorem slotMapN_succ (n : ℕ) : slotMapN (n + 1) = slotMapN n ++ [(n, pOff n)] := by
  rw [slotMapN, slotMapN, List.range_succ, List.map_append]
  rfl

theorem usedMapN_succ (n : ℕ) : usedMapN (n + 1) = usedMapN n ++ [(pOff n, 4096)] := by
  rw [usedMapN, usedMapN, List.range_succ, List.map_append]
  rfl

theorem hU64 : U64 = 18446744073709551616 := by norm_num [U64]

theorem denseB_slotMapN (n : ℕ) : denseB (slotMapN n) = true := by
  simp only [denseB, slotMapN, mapLen, List.all_eq_true, List.mem_map, List.length_map,
    List.length_range, List.mem_range]
  rintro kv ⟨i, hi, rfl⟩
  simpa using hi

/-- One recycler insertion below the fanout: the tree does not grow and the
page lands in the next leaf slot. -/
theorem insert_step (n : ℕ) (hn : n < 504) :
    insertPageM (PTab.mk 0 0 [] (slotMapN n)) 10000000 n (pOff n) =
      .ok (PTab.mk 0 0 [] (slotMapN (n + 1))) 10000000 := by
  have hF : numPageEntries = 504 := rfl
  have hgrow : growTree (n + 2) (PTab.mk 0 0 [] (slotMapN n)) 10000000 n =
      (PTab.mk 0 0 [] (slotMapN n), 10000000) := by
    show growTree (n + 1 + 1) _ _ _ = _
    rw [growTree]
    rw [if_pos]
    show n < maxPages 0
    rw [maxPages, hF]
    simpa using hn
  rw [insertPageM, hgrow]
  show insertDescend ((PTab.mk 0 0 [] (slotMapN n)).height + 1) _ n n (pOff n) 10000000 = _
  rw [PTab.height, insertDescend]
  rw [if_neg (by simp [PTab.height])]
  rw [insertLeaf]
  have hlen : mapLen (PTab.mk 0 0 [] (slotMapN n)).pages = n := by
    simp [PTab.pages, mapLen, slotMapN]
  rw [if_neg (by rw [hlen, hF]; omega)]
  have hgap : ¬ (0 < mapLen (PTab.mk 0 0 [] (slotMapN n)).pages ∧
      (mapGet (PTab.mk 0 0 [] (slotMapN n)).pages
        ((n % numPageEntries + (U64 - 1)) % U64)).isNone) := by
    rw [hlen, PTab.pages]
    rcases Nat.eq_zero_or_pos n with h0 | h0
    · omega
    · have hkey : (n % numPageEntries + (U64 - 1)) % U64 = n - 1 := by
        rw [hF, Nat.mod_eq_of_lt hn]
        have h1 : n + (U64 - 1) = (n - 1) + 1 * U64 := by rw [hU64]; omega
        rw [h1, Nat.add_mul_mod_self_right]
        exact Nat.mod_eq_of_lt (by rw [hU64]; omega)
      rw [hkey, mapGet_slotMapN]
      rw [if_pos (by omega)]
      simp
  rw [if_neg hgap]
  have hset : mapSet (PTab.mk 0 0 [] (slotMapN n)).pages (n % numPageEntries) (pOff n) =
      slotMapN (n + 1) := by
    rw [PTab.pages, hF, Nat.mod_eq_of_lt hn]
    rw [mapSet_of_none _ (by rw [mapGet_slotMapN]; simp)]
    exact (slotMapN_succ n).symm
  rw [hset, if_pos (denseB_slotMapN (n + 1))]
  rfl

/-- One single-page `addPages` on the recycler below the fanout. -/
theorem rpAdd_step (n : ℕ) (hn : n < 504) :
    rpAddPagesM (rpStateN n) [pOff n] = some (rpStateN (n + 1)) := by
  have hidx : (rpStateN n).gs.usedSize / pageSize = n := by
    show n * 4096 / pageSize = n
    rw [pageSize]
    omega
  have husedset : mapSet (usedMapN n) (pOff n) pageSize = usedMapN (n + 1) := by
    rw [mapSet_of_none]
    · rw [usedMapN_succ]
      rfl
    · apply mapGet_none_of_keys
      intro kv hkv
      simp only [usedMapN, List.mem_map, List.mem_range] at hkv
      obtain ⟨i, hi, rfl⟩ := hkv
      simp only [pOff]
      omega
  rw [rpAddPagesM, hidx]
  have hloop : rpAddLoop [pOff n] n (rpStateN n).root (rpStateN n).gs.nextAlloc
      (rpStateN n).gs.usedOf = some (PTab.mk 0 0 [] (slotMapN (n + 1)), 10000000,
        usedMapN (n + 1)) := by
    show rpAddLoop [pOff n] n (PTab.mk 0 0 [] (slotMapN n)) 10000000 (usedMapN n) = _
    simp only [rpAddLoop.eq_def]
    rw [insert_step n hn]
    simp only [rpAddLoop.eq_def, husedset]
  rw [hloop]
  have h2 : (List.range n).map pOff ++ [pOff n] = (List.range (n + 1)).map pOff := by
    rw [List.range_succ, List.map_append]
    rfl
  simp only [rpStateN, RPState.mk.injEq, GState.mk.injEq, Option.some.injEq,
    List.length_cons, List.length_nil, h2, and_true, true_and]
  rw [pageSize]
  omega

/-- Freeing `p1 … pn` one page at a time, `n ≤ FANOUT`, produces the
canonical height-0 recycler state. -/
theorem rpSeq_eq (n : ℕ) (hn : n ≤ 504) : rpSeq n = some (rpStateN n) := by
  induction n with
  | zero => rfl
  | succ n ih =>
    rw [rpSeq, List.range_succ, List.foldl_append, ← rpSeq]
    rw [ih (by omega)]
    show rpFreeOne (some (rpStateN n)) n = _
    rw [rpFreeOne, Option.bind]
    exact rpAdd_step n (by omega)

/-- The pages returned by the next two `freePage` calls. -/
def rpFirstTwoFrees (o : Option RPState) : Option (ℕ × ℕ) :=
  match o with
  | some st1 =>
    match freePageM st1 with
    | .ok p1 st2 =>
      match freePageM st2 with
      | .ok p2 _ => some (p1, p2)
      | _ => none
    | _ => none
  | none => none

set_option maxRecDepth 8000 in
/-- C7 counterexample.  Free pages `p1 … p505` one at a time (505 = FANOUT +
1, so the 505th insertion grows the recycler tree to height 1), then
allocate twice.  The first allocation returns `p505`, but truncating the
tree by that one page emptied a leaf table and the defrag collapse freed the
old root, and both node pages went into `pagesToFree`; the second allocation
pops that buffer and returns the old root's node page at offset 10000000 —
not `p504`, and not any of `p1 … p505`.  Freeing `p1 … pN` and then
allocating `N` pages therefore does not return `pN … p1`. -/
theorem freePage_after_addPages_not_lifo :
    rpFirstTwoFrees (rpSeq 505) = some (pOff 504, 10000000) ∧
    (10000000 : ℕ) ∉ (List.range 505).map pOff ∧ (10000000 : ℕ) ≠ pOff 503 := by
  have h5 : rpSeq 505 = rpFreeOne (some (rpStateN 504)) 504 := by
    rw [rpSeq, List.range_succ, List.foldl_append, ← rpSeq, rpSeq_eq 504 le_rfl]
    rfl
  rw [h5]
  constructor
  · decide
  · constructor
    · decide
    · decide

/-! ### C2: persisting and recovering the tree preserves read-only behavior -/

/-- The in-order data-page offsets of a tree, by height recursion. -/
def leavesT : ℕ → PTab → List ℕ
  | 0, t => slotVals t.pages
  | h + 1, t => (slotVals t.tabs).flatMap (fun c => leavesT h c)

/-- The persisted form of the tree, as the map from each node page's file
offset to its marshalled child-offset list (`marshal` writes the slots in
order `0 .. numEntries - 1`). -/
def diskOf : ℕ → PTab → List (ℕ × List ℕ)
  | 0, t => [(t.ppOff, slotVals t.pages)]
  | h + 1, t =>
    (t.ppOff, (slotVals t.tabs).map PTab.ppOff) ::
      (slotVals t.tabs).flatMap (fun c => diskOf h c)

/-- The `usedSize` assignment `recursiveRecovery` performs on the in-order
data pages: full pages while more than `PAGE_SIZE` bytes remain, the
remainder for the final page. -/
def usedAssign : List ℕ → ℕ → List (ℕ × ℕ) × ℕ
  | [], rem => ([], rem)
  | o :: rest, rem =>
    ((o, if pageSize < rem then pageSize else rem) ::
        (usedAssign rest (if pageSize < rem then rem - pageSize else 0)).1,
      (usedAssign rest (if pageSize < rem then rem - pageSize else 0)).2)

/-- Well-formedness of a persisted tree at a given height: dense,
duplicate-free slot maps of at most `FANOUT` entries at every node. -/
def wfRec : ℕ → PTab → Bool
  | 0, t => denseB t.pages && keysNodupB t.pages &&
      decide (mapLen t.pages ≤ numPageEntries)
  | h + 1, t => denseB t.tabs && keysNodupB t.tabs &&
      decide (mapLen t.tabs ≤ numPageEntries) &&
      (slotVals t.tabs).all (fun c => wfRec h c)

theorem mapGet_isSome_iff_mem {α : Type} (m : List (ℕ × α)) (k : ℕ) :
    (mapGet m k).isSome ↔ k ∈ m.map Prod.fst := by
  induction m with
  | nil => simp [mapGet]
  | cons kv rest ih =>
    rw [← kv.eta, mapGet_cons]
    by_cases hk : kv.1 = k
    · simp [hk]
    · simp only [List.map_cons, List.mem_cons, if_neg hk]
      rw [← ih]
      constructor
      · intro h
        exact Or.inr h
      · rintro (h | h)
        · exact absurd h.symm hk
        · exact h

/-- On a dense, duplicate-free map every slot below the length is
populated. -/
theorem dense_isSome {α : Type} {m : List (ℕ × α)} (hd : denseB m = true)
    (hn : keysNodupB m = true) {i : ℕ} (hi : i < mapLen m) :
    (mapGet m i).isSome := by
  rw [mapGet_isSome_iff_mem]
  simp only [denseB, List.all_eq_true] at hd
  simp only [keysNodupB, decide_eq_true_eq] at hn
  have hsub : (m.map Prod.fst).toFinset ⊆ Finset.range (mapLen m) := by
    intro x hx
    rw [List.mem_toFinset] at hx
    rw [Finset.mem_range]
    obtain ⟨kv, hkv, rfl⟩ := List.mem_map.mp hx
    simpa using hd kv hkv
  have hcard : (m.map Prod.fst).toFinset.card = (Finset.range (mapLen m)).card := by
    rw [List.toFinset_card_of_nodup hn, Finset.card_range]
    simp [mapLen]
  have heq : (m.map Prod.fst).toFinset = Finset.range (mapLen m) :=
    Finset.eq_of_subset_of_card_le hsub (le_of_eq hcard.symm)
  have : i ∈ (m.map Prod.fst).toFinset := by
    rw [heq, Finset.mem_range]
    exact hi
  rwa [List.mem_toFinset] at this

theorem length_filterMap_of_isSome {α β : Type} (f : α → Option β) :
    ∀ (l : List α), (∀ x ∈ l, (f x).isSome) → (l.filterMap f).length = l.length := by
  intro l
  induction l with
  | nil => simp
  | cons a rest ih =>
    intro h
    rw [List.filterMap_cons]
    have ha := h a (by simp)
    match hfa : f a with
    | none => rw [hfa] at ha; simp at ha
    | some b =>
      simp only [List.length_cons]
      rw [ih (fun x hx => h x (by simp [hx]))]

/-- On a dense, duplicate-free map `slotVals` lists one value per slot. -/
theorem slotVals_length {α : Type} {m : List (ℕ × α)} (hd : denseB m = true)
    (hn : keysNodupB m = true) : (slotVals m).length = mapLen m := by
  rw [slotVals, length_filterMap_of_isSome]
  · simp
  · intro i hi
    exact dense_isSome hd hn (by simpa using hi)

theorem usedAssign_append (l1 l2 : List ℕ) (rem : ℕ) :
    usedAssign (l1 ++ l2) rem =
      ((usedAssign l1 rem).1 ++ (usedAssign l2 (usedAssign l1 rem).2).1,
        (usedAssign l2 (usedAssign l1 rem).2).2) := by
  induction l1 generalizing rem with
  | nil => simp [usedAssign]
  | cons o rest ih =>
    simp only [List.cons_append, usedAssign, List.append_eq, ih]

theorem mapGet_self_of_nodup {α : Type} {m : List (ℕ × α)}
    (h : (m.map Prod.fst).Nodup) : ∀ row ∈ m, mapGet m row.1 = some row.2 := by
  induction m with
  | nil => simp
  | cons kv rest ih =>
    simp only [List.map_cons, List.nodup_cons] at h
    intro row hrow
    rcases List.mem_cons.mp hrow with hr | hr
    · rw [hr, ← kv.eta, mapGet_cons, if_pos rfl]
    · rw [← kv.eta, mapGet_cons, if_neg, ih h.2 row hr]
      intro hk
      exact h.1 (by rw [hk]; exact List.mem_map.mpr ⟨row, hr, rfl⟩)

theorem recoverKids_leaf (rec : ℕ → ℕ → RecRes) :
    ∀ (entries : List ℕ) (parent : PTab) (rem : ℕ),
    ∃ p3, recoverKids rec 0 parent entries rem =
      .ok p3 (usedAssign entries rem).1 (usedAssign entries rem).2 := by
  intro entries
  induction entries with
  | nil => exact fun parent rem => ⟨parent, rfl⟩
  | cons eoff rest ih =>
    intro parent rem
    obtain ⟨p3, hp3⟩ := ih
      (PTab.mk parent.ppOff parent.height parent.tabs
        (mapSet parent.pages ((mapLen parent.pages + (U64 - 1)) % U64) eoff))
      (if pageSize < rem then rem - pageSize else 0)
    refine ⟨p3, ?_⟩
    simp only [recoverKids, if_neg (lt_irrefl 0), hp3, usedAssign]

theorem recoverKids_node (rec : ℕ → ℕ → RecRes) (lv : PTab → List ℕ) (hh : ℕ)
    (hpos : 0 < hh) :
    ∀ (children : List PTab) (parent : PTab) (rem : ℕ),
    (∀ c ∈ children, ∀ r, ∃ t2, rec c.ppOff r =
        .ok t2 (usedAssign (lv c) r).1 (usedAssign (lv c) r).2) →
    ∃ p3, recoverKids rec hh parent (children.map PTab.ppOff) rem =
      .ok p3 (usedAssign (children.flatMap lv) rem).1
        (usedAssign (children.flatMap lv) rem).2 := by
  intro children
  induction children with
  | nil =>
    intro parent rem hrec
    exact ⟨parent, by simp [recoverKids, usedAssign]⟩
  | cons c rest ih =>
    intro parent rem hrec
    obtain ⟨t2, ht2⟩ := hrec c (by simp) rem
    obtain ⟨p3, hp3⟩ := ih
      (PTab.mk parent.ppOff parent.height
        (mapSet parent.tabs ((mapLen parent.tabs + (U64 - 1)) % U64) t2)
        parent.pages)
      (usedAssign (lv c) rem).2
      (fun c2 hc2 r => hrec c2 (by simp [hc2]) r)
    refine ⟨p3, ?_⟩
    simp only [List.map_cons, recoverKids, if_pos hpos, ht2, hp3]
    rw [List.flatMap_cons, usedAssign_append]

theorem recoverGo_ok (disk : List (ℕ × List ℕ)) :
    ∀ (h : ℕ) (t : PTab), wfRec h t = true →
    (∀ row ∈ diskOf h t, mapGet disk row.1 = some row.2) →
    ∀ rem, ∃ t2, recoverGo disk h t.ppOff rem =
      .ok t2 (usedAssign (leavesT h t) rem).1 (usedAssign (leavesT h t) rem).2 := by
  intro h
  induction h with
  | zero =>
    intro t hwf hsub rem
    simp only [wfRec, Bool.and_eq_true, decide_eq_true_eq] at hwf
    obtain ⟨⟨hd, hn⟩, hle⟩ := hwf
    have h0 : mapGet disk t.ppOff = some (slotVals t.pages) :=
      hsub (t.ppOff, slotVals t.pages) (by simp [diskOf])
    obtain ⟨p3, hp3⟩ := recoverKids_leaf recNoFuel (slotVals t.pages)
      (PTab.mk t.ppOff 0 [] []) rem
    refine ⟨p3, ?_⟩
    simp only [recoverGo, h0]
    rw [if_neg (by rw [slotVals_length hd hn]; omega), hp3]
    rfl
  | succ h ih =>
    intro t hwf hsub rem
    simp only [wfRec, Bool.and_eq_true, decide_eq_true_eq, List.all_eq_true] at hwf
    obtain ⟨⟨⟨hd, hn⟩, hle⟩, hall⟩ := hwf
    have h0 : mapGet disk t.ppOff = some ((slotVals t.tabs).map PTab.ppOff) :=
      hsub (t.ppOff, (slotVals t.tabs).map PTab.ppOff) (by simp [diskOf])
    obtain ⟨p3, hp3⟩ := recoverKids_node (recoverGo disk h) (leavesT h) (h + 1)
      (by omega) (slotVals t.tabs) (PTab.mk t.ppOff (h + 1) [] []) rem
      (fun c hc r => ih c (hall c hc)
        (fun row hrow => hsub row (by
          simp only [diskOf, List.mem_cons]
          exact Or.inr (List.mem_flatMap.mpr ⟨c, hc, hrow⟩))) r)
    refine ⟨p3, ?_⟩
    simp only [recoverGo, h0]
    rw [if_neg (by rw [List.length_map, slotVals_length hd hn]; omega), hp3]
    rfl

theorem usedAssign_cons (o : ℕ) (rest : List ℕ) (rem : ℕ) :
    usedAssign (o :: rest) rem =
      ((o, if pageSize < rem then pageSize else rem) ::
          (usedAssign rest (if pageSize < rem then rem - pageSize else 0)).1,
        (usedAssign rest (if pageSize < rem then rem - pageSize else 0)).2) := rfl

theorem usedAssign_full :
    ∀ (offs : List ℕ) (us : ℕ), offs ≠ [] →
    (offs.length - 1) * pageSize < us → us ≤ offs.length * pageSize →
    usedAssign offs us =
      (offs.zip (List.replicate (offs.length - 1) pageSize ++
        [us - (offs.length - 1) * pageSize]), 0) := by
  intro offs
  induction offs with
  | nil => simp
  | cons o rest ih =>
    intro us hne h1 h2
    cases rest with
    | nil =>
      simp only [List.length_cons, List.length_nil] at h1 h2 ⊢
      rw [pageSize] at h1 h2
      have hnot : ¬ pageSize < us := by rw [pageSize]; omega
      rw [usedAssign_cons]
      simp only [if_neg hnot]
      simp [usedAssign]
    | cons o2 rest2 =>
      simp only [List.length_cons] at h1 h2 ⊢
      rw [pageSize] at h1 h2
      have hps : pageSize < us := by rw [pageSize]; omega
      rw [usedAssign_cons]
      simp only [if_pos hps]
      have hrec := ih (us - pageSize) (by simp)
        (by simp only [List.length_cons]; rw [pageSize] at *; omega)
        (by simp only [List.length_cons]; rw [pageSize] at *; omega)
      simp only [List.length_cons] at hrec
      rw [hrec]
      have hlast : us - pageSize - (rest2.length + 1 - 1) * pageSize =
          us - (rest2.length + 1 + 1 - 1) * pageSize := by
        rw [pageSize] at *
        omega
      have hrepl : List.replicate (rest2.length + 1 + 1 - 1) pageSize =
          pageSize :: List.replicate (rest2.length + 1 - 1) pageSize := by
        have he : rest2.length + 1 + 1 - 1 = (rest2.length + 1 - 1) + 1 := by omega
        rw [he, List.replicate_succ]
      rw [hlast] at hrec ⊢
      rw [hrepl]
      rfl

/-- The engine rebuilt after recovery: same backing file, the recovered
pages with their recovered `usedSize`s, and the descriptor's `used_size`. -/
def rebuiltE (st : EState) (pairs : List (ℕ × ℕ)) : EState :=
  ⟨st.disk, pairs.map (fun pr => ⟨pr.1, pr.2⟩), st.usedSize, st.nextAlloc⟩

/-- Consistency of an entry state (spec §3): every page but the last is
full and the last holds the remainder; equivalently `usedSize` lies in
`((n-1)·PAGE_SIZE, n·PAGE_SIZE]` and the page `usedSize`s are
`PAGE_SIZE, …, PAGE_SIZE, usedSize - (n-1)·PAGE_SIZE`. -/
def usedConsistentB (st : EState) : Bool :=
  if st.epages.length = 0 then decide (st.usedSize = 0)
  else decide ((st.epages.length - 1) * pageSize < st.usedSize) &&
    decide (st.usedSize ≤ st.epages.length * pageSize) &&
    decide (st.epages.map EPage.used =
      List.replicate (st.epages.length - 1) pageSize ++
        [st.usedSize - (st.epages.length - 1) * pageSize])

/-- C2.  Persist a well-formed tree (`diskOf` is exactly what the nodes'
`writeToDisk`/`marshal` leave on disk) and rebuild via
`recoverTree`/`recursiveRecovery` from the descriptor's
`(height, used_size, root_off)`: recovery succeeds, reproduces the pages in
order with `usedSize = PAGE_SIZE` for all but the last page and the
remainder (or `PAGE_SIZE` when the remainder is zero) for the last, and the
rebuilt engine is literally equal on the read-observable state, so `Read`,
`ReadAt` and `Seek` are indistinguishable from the original. -/
theorem recoverTree_preserves_reads (st : EState) (t : PTab) (h : ℕ)
    (hwf : wfRec h t = true)
    (hnodup : ((diskOf h t).map Prod.fst).Nodup)
    (hleaves : leavesT h t = st.epages.map EPage.off)
    (hused : usedConsistentB st = true) :
    ∃ t2, recoverGo (diskOf h t) h t.ppOff st.usedSize =
        .ok t2 (st.epages.map (fun pg => (pg.off, pg.used))) 0 ∧
      rebuiltE st (st.epages.map (fun pg => (pg.off, pg.used))) = st ∧
      (∀ L cp co, entryRead (rebuiltE st (st.epages.map (fun pg => (pg.off, pg.used)))) L cp co =
        entryRead st L cp co) ∧
      (∀ L off2, entryReadAt (rebuiltE st (st.epages.map (fun pg => (pg.off, pg.used)))) L off2 =
        entryReadAt st L off2) ∧
      (∀ cp co d w, entrySeek (rebuiltE st (st.epages.map (fun pg => (pg.off, pg.used)))) cp co d w =
        entrySeek st cp co d w) := by
  obtain ⟨t2, ht2⟩ := recoverGo_ok (diskOf h t) h t hwf
    (mapGet_self_of_nodup hnodup) st.usedSize
  have hre : rebuiltE st (st.epages.map (fun pg => (pg.off, pg.used))) = st := by
    rw [rebuiltE]
    have hmm : (st.epages.map (fun pg => (pg.off, pg.used))).map
        (fun pr => EPage.mk pr.1 pr.2) = st.epages := by
      rw [List.map_map]
      have he : ((fun pr : ℕ × ℕ => EPage.mk pr.1 pr.2) ∘
          (fun pg : EPage => (pg.off, pg.used))) = id := by
        funext pg
        rfl
      rw [he, List.map_id]
    rw [hmm]
  refine ⟨t2, ?_, hre, fun L cp co => by rw [hre], fun L off2 => by rw [hre],
    fun cp co d w => by rw [hre]⟩
  rw [ht2, hleaves]
  by_cases hn0 : st.epages.length = 0
  · have hempty : st.epages = [] := List.length_eq_zero.mp hn0
    have hus : st.usedSize = 0 := by
      rw [usedConsistentB, if_pos hn0] at hused
      simpa using hused
    rw [hempty, hus]
    rfl
  · rw [usedConsistentB, if_neg hn0] at hused
    simp only [Bool.and_eq_true, decide_eq_true_eq] at hused
    obtain ⟨⟨hb1, hb2⟩, hlist⟩ := hused
    have hfull := usedAssign_full (st.epages.map EPage.off) st.usedSize
      (by simp only [ne_eq, List.map_eq_nil_iff]; exact fun hc => hn0 (by rw [hc]; rfl))
      (by rw [List.length_map]; exact hb1)
      (by rw [List.length_map]; exact hb2)
    rw [hfull, List.length_map, ← hlist, List.zip_map']

/-- The persisted tree of the two-page entry `stTwoFull`. -/
def treeC2w : PTab := PTab.mk 100 0 [] [(0, 4096), (1, 8192)]

/-- Witness for C2 at the concrete two-page entry `stTwoFull` and its
height-0 tree `treeC2w`. -/
theorem recoverTree_preserves_reads_witness :
    ∃ t2, recoverGo (diskOf 0 treeC2w) 0 treeC2w.ppOff stTwoFull.usedSize =
        .ok t2 (stTwoFull.epages.map (fun pg => (pg.off, pg.used))) 0 ∧
      rebuiltE stTwoFull (stTwoFull.epages.map (fun pg => (pg.off, pg.used))) = stTwoFull ∧
      (∀ L cp co, entryRead (rebuiltE stTwoFull
          (stTwoFull.epages.map (fun pg => (pg.off, pg.used)))) L cp co =
        entryRead stTwoFull L cp co) ∧
      (∀ L off2, entryReadAt (rebuiltE stTwoFull
          (stTwoFull.epages.map (fun pg => (pg.off, pg.used)))) L off2 =
        entryReadAt stTwoFull L off2) ∧
      (∀ cp co d w, entrySeek (rebuiltE stTwoFull
          (stTwoFull.epages.map (fun pg => (pg.off, pg.used)))) cp co d w =
        entrySeek stTwoFull cp co d w) :=
  recoverTree_preserves_reads stTwoFull treeC2w 0 (by decide) (by decide)
    (by decide) (by decide)

/-! ### Well-formed trees and the amended defrag property -/

/-- A node with at least one child (table or page). -/
def neTab (t : PTab) : Bool := decide (0 < mapLen t.tabs + mapLen t.pages)

/-- Well-formedness of a live tree at a given height: the height fields
match, every slot map is a dense duplicate-free prefix of at most `FANOUT`
slots, `childTables`/`childPages` are mutually exclusive, and every child is
well-formed and non-empty (nodes are created on demand and removed when
emptied; only the root may be empty). -/
def wfT : ℕ → PTab → Bool
  | 0, t => decide (t.height = 0) && denseB t.pages && keysNodupB t.pages &&
      decide (mapLen t.pages ≤ numPageEntries) && t.tabs.isEmpty
  | h + 1, t => decide (t.height = h + 1) && denseB t.tabs && keysNodupB t.tabs &&
      decide (mapLen t.tabs ≤ numPageEntries) && t.pages.isEmpty &&
      (slotVals t.tabs).all (fun c => wfT h c && neTab c)

theorem mem_slotVals_of_mapGet {α : Type} {m : List (ℕ × α)} {i : ℕ} {v : α}
    (hi : i < mapLen m) (hv : mapGet m i = some v) : v ∈ slotVals m := by
  rw [slotVals, List.mem_filterMap]
  exact ⟨i, by simpa using hi, hv⟩

/-- C4 amended.  On a well-formed tree, `defrag` (entered with its
height-plus-one levels of fuel, which always suffices) succeeds and leaves a
root that either has height 0 or does not have exactly one child. -/
theorem defragGo_no_single_child :
    ∀ (h : ℕ) (t : PTab), wfT h t = true →
    ∃ r freed, defragGo (h + 1) t = .ok r freed ∧
      ¬ (0 < r.height ∧ mapLen r.tabs = 1) := by
  intro h
  induction h with
  | zero =>
    intro t hwf
    simp only [wfT, Bool.and_eq_true, decide_eq_true_eq] at hwf
    refine ⟨t, [], ?_, ?_⟩
    · rw [defragGo, if_neg (by rw [hwf.1.1.1.1]; simp)]
    · rw [hwf.1.1.1.1]
      simp
  | succ h ih =>
    intro t hwf
    simp only [wfT, Bool.and_eq_true, decide_eq_true_eq, List.all_eq_true] at hwf
    obtain ⟨⟨⟨⟨⟨hht, hd⟩, hn⟩, hle⟩, hpe⟩, hall⟩ := hwf
    by_cases h1 : mapLen t.tabs = 1
    · have hs : (mapGet t.tabs 0).isSome := dense_isSome hd hn (by omega)
      match hc : mapGet t.tabs 0 with
      | none => rw [hc] at hs; simp at hs
      | some c =>
        have hcmem : c ∈ slotVals t.tabs := mem_slotVals_of_mapGet (by omega) hc
        have hcwf := hall c hcmem
        obtain ⟨r, freed, hr, hnot⟩ := ih c hcwf.1
        refine ⟨r, t.ppOff :: freed, ?_, hnot⟩
        rw [defragGo, if_pos (by rw [hht]; exact ⟨by omega, h1⟩), hc]
        simp only [hr]
    · refine ⟨t, [], ?_, fun hcon => h1 hcon.2⟩
      rw [defragGo, if_neg (fun hcon => h1 hcon.2)]

/-- Witness for the amended C4 at a height-1 root with one single-page
child: defrag collapses it to the height-0 leaf. -/
theorem defragGo_no_single_child_witness :
    ∃ r freed,
      defragGo (1 + 1) (PTab.mk 100 1 [(0, PTab.mk 200 0 [] [(0, 300)])] []) =
        .ok r freed ∧ ¬ (0 < r.height ∧ mapLen r.tabs = 1) :=
  defragGo_no_single_child 1 (PTab.mk 100 1 [(0, PTab.mk 200 0 [] [(0, 300)])] [])
    (by decide)

/-! ### Slot-map and sum lemmas for the truncation proofs -/

theorem mapGet_mapDel {α : Type} (m : List (ℕ × α)) (k j : ℕ) :
    mapGet (mapDel m k) j = if j = k then none else mapGet m j := by
  induction m with
  | nil => by_cases hj : j = k <;> simp [mapDel, mapGet, hj]
  | cons kv rest ih =>
    rw [mapDel, List.filter_cons]
    by_cases hk : kv.1 = k
    · rw [if_neg (by simp [hk])]
      rw [show List.filter (fun kv => kv.1 ≠ k) rest = mapDel rest k from rfl, ih]
      by_cases hj : j = k
      · simp [hj]
      · rw [if_neg hj, if_neg hj, ← kv.eta, mapGet_cons,
          if_neg (fun hc => hj (hc.symm.trans hk))]
    · rw [if_pos (by simp [hk])]
      rw [← kv.eta, mapGet_cons,
        show List.filter (fun kv => kv.1 ≠ k) rest = mapDel rest k from rfl, ih]
      by_cases hj : kv.1 = j
      · by_cases hjk : j = k
        · exact absurd (hj.trans hjk) hk
        · simp [mapGet_cons, hj, hjk]
      · by_cases hjk : j = k
        · simp [mapGet_cons, hj, hjk, hk]
        · simp [mapGet_cons, hj, hjk]
          rw [← kv.eta, mapGet_cons, if_neg hj]

theorem mapDel_eq_self {α : Type} {m : List (ℕ × α)} {k : ℕ}
    (h : ∀ kv ∈ m, kv.1 ≠ k) : mapDel m k = m := by
  rw [mapDel, List.filter_eq_self]
  intro kv hkv
  simpa using h kv hkv

theorem mapLen_mapDel {α : Type} {m : List (ℕ × α)} (hn : keysNodupB m = true)
    {k : ℕ} (hk : (mapGet m k).isSome) : mapLen (mapDel m k) = mapLen m - 1 := by
  induction m with
  | nil => simp [mapGet] at hk
  | cons kv rest ih =>
    simp only [keysNodupB, List.map_cons, List.nodup_cons, decide_eq_true_eq] at hn
    by_cases hkk : kv.1 = k
    · rw [mapDel, List.filter_cons, if_neg (by simp [hkk])]
      rw [show List.filter (fun kv => kv.1 ≠ k) rest = mapDel rest k from rfl]
      rw [mapDel_eq_self (fun kv2 hkv2 hc =>
        hn.1 (List.mem_map.mpr ⟨kv2, hkv2, hc.trans hkk.symm⟩))]
      simp [mapLen]
    · rw [← kv.eta, mapGet_cons, if_neg hkk] at hk
      have hmem : k ∈ rest.map Prod.fst := (mapGet_isSome_iff_mem rest k).mp hk
      have hlen : 0 < mapLen rest := by
        rcases List.mem_map.mp hmem with ⟨kv2, hkv2, _⟩
        simp only [mapLen]
        exact List.length_pos.mpr (fun hc => by rw [hc] at hkv2; simp at hkv2)
      rw [mapDel, List.filter_cons, if_pos (by simp [hkk])]
      rw [show List.filter (fun kv => kv.1 ≠ k) rest = mapDel rest k from rfl]
      have := ih (by simp [keysNodupB, hn.2]) hk
      simp only [mapLen] at this hlen ⊢
      rw [List.length_cons, this, List.length_cons]
      omega

theorem keysNodupB_mapDel {α : Type} {m : List (ℕ × α)}
    (hn : keysNodupB m = true) (k : ℕ) : keysNodupB (mapDel m k) = true := by
  simp only [keysNodupB, decide_eq_true_eq] at hn ⊢
  exact ((List.filter_sublist m).map Prod.fst).nodup hn

theorem denseB_mapDel_top {α : Type} {m : List (ℕ × α)} (hd : denseB m = true)
    (hn : keysNodupB m = true) (h0 : 0 < mapLen m) :
    denseB (mapDel m (mapLen m - 1)) = true := by
  have hlen : mapLen (mapDel m (mapLen m - 1)) = mapLen m - 1 :=
    mapLen_mapDel hn (dense_isSome hd hn (by omega))
  simp only [denseB, List.all_eq_true, decide_eq_true_eq] at hd ⊢
  intro kv hkv
  have hmem : kv ∈ m := List.mem_of_mem_filter hkv
  have hlt := hd kv hmem
  have hne : kv.1 ≠ mapLen m - 1 := by
    simp only [mapDel, List.mem_filter, decide_eq_true_eq] at hkv
    simpa using hkv.2
  rw [hlen]
  omega

theorem slotVals_split {α : Type} {m : List (ℕ × α)} (hd : denseB m = true)
    (hn : keysNodupB m = true) (h0 : 0 < mapLen m) :
    ∃ v, mapGet m (mapLen m - 1) = some v ∧
      slotVals m = slotVals (mapDel m (mapLen m - 1)) ++ [v] := by
  have hs := dense_isSome hd hn (show mapLen m - 1 < mapLen m by omega)
  obtain ⟨v, hv⟩ := Option.isSome_iff_exists.mp hs
  refine ⟨v, hv, ?_⟩
  rw [slotVals, slotVals, mapLen_mapDel hn (by rw [hv]; rfl)]
  have hr : List.range (mapLen m) = List.range (mapLen m - 1) ++ [mapLen m - 1] := by
    conv_lhs => rw [show mapLen m = (mapLen m - 1) + 1 by omega]
    rw [List.range_succ]
  rw [hr, List.filterMap_append]
  have hcong : ∀ i ∈ List.range (mapLen m - 1),
      mapGet m i = mapGet (mapDel m (mapLen m - 1)) i := by
    intro i hi
    rw [mapGet_mapDel, if_neg (by simp at hi; omega)]
  rw [List.filterMap_congr hcong]
  simp [hv]

/-- The total of the pages' `usedSize`s, read through the aliasing map. -/
def sumUsed (usedOf : List (ℕ × ℕ)) (pages : List ℕ) : ℕ :=
  (pages.map (fun o => (mapGet usedOf o).getD 0)).sum

theorem sumUsed_append (u : List (ℕ × ℕ)) (l1 l2 : List ℕ) :
    sumUsed u (l1 ++ l2) = sumUsed u l1 + sumUsed u l2 := by
  simp [sumUsed]

theorem mapGet_map_replace_ne {α : Type} (k : ℕ) (v : α) :
    ∀ (m : List (ℕ × α)) (j : ℕ), j ≠ k →
    mapGet (m.map (fun kv => if kv.1 = k then (k, v) else kv)) j = mapGet m j := by
  intro m
  induction m with
  | nil => intro j hj; rfl
  | cons kv rest ih =>
    intro j hj
    simp only [List.map_cons]
    by_cases hkk : kv.1 = k
    · rw [if_pos hkk, mapGet_cons, if_neg (fun hc => hj hc.symm), ih j hj,
        ← kv.eta, mapGet_cons, if_neg (fun hc => hj (hc.symm.trans hkk))]
    · rw [if_neg hkk, ← kv.eta, mapGet_cons, mapGet_cons, ih j hj]

theorem mapGet_map_replace_eq {α : Type} (k : ℕ) (v : α) :
    ∀ (m : List (ℕ × α)), (mapGet m k).isSome →
    mapGet (m.map (fun kv => if kv.1 = k then (k, v) else kv)) k = some v := by
  intro m
  induction m with
  | nil => intro hk; simp [mapGet] at hk
  | cons kv rest ih =>
    intro hk
    rw [← kv.eta, mapGet_cons] at hk
    simp only [List.map_cons]
    by_cases hkk : kv.1 = k
    · rw [if_pos hkk, mapGet_cons, if_pos rfl]
    · rw [if_neg hkk, ← kv.eta, mapGet_cons, if_neg hkk]
      rw [if_neg hkk] at hk
      exact ih hk

theorem mapGet_mapSet {α : Type} (m : List (ℕ × α)) (k j : ℕ) (v : α) :
    mapGet (mapSet m k v) j = if j = k then some v else mapGet m j := by
  rw [mapSet]
  by_cases hk : (mapGet m k).isSome
  · rw [if_pos hk]
    by_cases hj : j = k
    · rw [if_pos hj, hj, mapGet_map_replace_eq k v m hk]
    · rw [if_neg hj, mapGet_map_replace_ne k v m j hj]
  · rw [if_neg hk]
    have hnone : mapGet m k = none := Option.not_isSome_iff_eq_none.mp hk
    by_cases hj : j = k
    · rw [if_pos hj, hj, mapGet_append_of_none _ hnone, mapGet_cons, if_pos rfl]
    · rw [if_neg hj]
      match hmj : mapGet m j with
      | some w => rw [mapGet_append_of_some _ hmj]
      | none =>
        rw [mapGet_append_of_none _ hmj, mapGet_cons, if_neg (fun hc => hj hc.symm)]
        rfl

theorem sumUsed_mapSet_mem (u : List (ℕ × ℕ)) (p v : ℕ) :
    ∀ (l : List ℕ), l.Nodup → p ∈ l →
    sumUsed (mapSet u p v) l + (mapGet u p).getD 0 = sumUsed u l + v := by
  intro l
  induction l with
  | nil => intro _ hp; simp at hp
  | cons o rest ih =>
    intro hl hp
    rw [List.nodup_cons] at hl
    simp only [sumUsed, List.map_cons, List.sum_cons] at *
    rcases List.mem_cons.mp hp with hpo | hmem
    · rw [← hpo, mapGet_mapSet, if_pos rfl]
      have hrest : rest.map (fun o2 => (mapGet (mapSet u p v) o2).getD 0) =
          rest.map (fun o2 => (mapGet u o2).getD 0) := by
        apply List.map_congr_left
        intro o2 ho2
        rw [mapGet_mapSet, if_neg (fun hc => (hpo ▸ hl.1) (hc ▸ ho2))]
      rw [hrest]
      simp only [Option.getD_some]
      omega
    · have ho : o ≠ p := fun hc => hl.1 (hc ▸ hmem)
      rw [mapGet_mapSet, if_neg ho]
      have := ih hl.2 hmem
      omega

theorem keysNodupB_mapSet {α : Type} (u : List (ℕ × α)) (k : ℕ) (v : α)
    (hn : keysNodupB u = true) : keysNodupB (mapSet u k v) = true := by
  rw [mapSet]
  by_cases hk : (mapGet u k).isSome
  · rw [if_pos hk]
    simp only [keysNodupB, decide_eq_true_eq, List.map_map] at hn ⊢
    have : (Prod.fst ∘ fun kv => if kv.1 = k then (k, v) else kv) = Prod.fst := by
      funext kv
      by_cases hc : kv.1 = k <;> simp [hc]
    rw [this]
    exact hn
  · rw [if_neg hk]
    simp only [keysNodupB, decide_eq_true_eq, List.map_append] at hn ⊢
    rw [List.nodup_append]
    refine ⟨hn, by simp, ?_⟩
    intro x hx
    simp only [List.map_cons, List.map_nil, List.mem_singleton]
    intro hc
    rw [hc] at hx
    exact (by simpa using hk : ¬ (mapGet u k).isSome = true)
      ((mapGet_isSome_iff_mem u k).mpr hx)

theorem wrap_pred (n : ℕ) (h1 : 0 < n) (h2 : n ≤ U64) :
    (n + (U64 - 1)) % U64 = n - 1 := by
  rw [hU64] at *
  omega

/-- Consistency of the shared tiered-page state with the tree's in-order
leaves: the `pages` slice is the given prefix plus the leaves, `usedSize` is
the total of the pages' `usedSize`s, and page offsets and the aliasing map's
keys are duplicate-free. -/
def consistB (gs : GState) (pre leaves : List ℕ) : Bool :=
  decide (gs.pagesL = pre ++ leaves) &&
  decide (gs.usedSize = sumUsed gs.usedOf gs.pagesL) &&
  decide gs.pagesL.Nodup && keysNodupB gs.usedOf

/-- The contract of one `recursiveTruncate` call on the subtree `c` under
prefix `pre` with accumulated freed list `acc`: it returns `ok`, removes a
suffix of the subtree's leaves, preserves consistency, well-formedness, the
node's identity and the allocator; `empty = false` means the target size was
reached (and a non-empty subtree stayed non-empty), `empty = true` means the
subtree was emptied; the size never undershoots; if the rightmost page had
to be removed entirely, it is the first freed page; and a call that already
satisfies the bound changes nothing. -/
def TPost (hh size : ℕ) (c : PTab) (gs : GState) (pre acc : List ℕ)
    (r : TRes) : Prop :=
  ∃ e fr c2 gs2 k,
    r = TRes.ok e (acc ++ fr) c2 gs2 ∧
    leavesT hh c2 = (leavesT hh c).take k ∧
    consistB gs2 pre (leavesT hh c2) = true ∧
    c2.ppOff = c.ppOff ∧ c2.height = c.height ∧ gs2.nextAlloc = gs.nextAlloc ∧
    wfT hh c2 = true ∧
    (e = false → gs2.usedSize ≤ size ∧ (neTab c = true → neTab c2 = true)) ∧
    (e = true → leavesT hh c2 = []) ∧
    (size < gs.usedSize → size ≤ gs2.usedSize ∧
      (usedOfGet gs ((leavesT hh c).getLast?.getD 0) ≤ gs.usedSize - size →
        fr.head? = (leavesT hh c).getLast?)) ∧
    (gs.usedSize ≤ size → e = false ∧ fr = [] ∧ c2 = c ∧ gs2 = gs)

theorem neTab_of_pages {t : PTab} (h : 0 < mapLen t.pages) : neTab t = true := by
  simp only [neTab, decide_eq_true_eq]
  omega

theorem sumUsed_single (u : List (ℕ × ℕ)) (p : ℕ) :
    sumUsed u [p] = (mapGet u p).getD 0 := by
  simp [sumUsed]

theorem truncPagesLoop_succ (size f i : ℕ) (t : PTab) (gs : GState)
    (acc : List ℕ) :
    truncPagesLoop size (f + 1) i t gs acc =
    (if gs.usedSize ≤ size then .ok false acc t gs
    else
      match mapGet t.pages i with
      | none => .panicSlot
      | some poff =>
        if gs.usedSize - size < usedOfGet gs poff then
          truncPagesLoop size f ((i + (U64 - 1)) % U64) t
            { gs with usedOf := mapSet gs.usedOf poff
                        (usedOfGet gs poff - (gs.usedSize - size)),
                      usedSize := gs.usedSize - (gs.usedSize - size) } acc
        else
          match gs.pagesL.getLast? with
          | none => .panicSanity
          | some removed =>
            if removed ≠ poff then .panicSanity
            else
              if mapLen (mapDel t.pages i) = 0 then
                .ok true (acc ++ [poff])
                  (PTab.mk t.ppOff t.height t.tabs (mapDel t.pages i))
                  { gs with pagesL := gs.pagesL.dropLast,
                            usedSize := gs.usedSize - usedOfGet gs poff }
              else
                truncPagesLoop size f ((i + (U64 - 1)) % U64)
                  (PTab.mk t.ppOff t.height t.tabs (mapDel t.pages i))
                  { gs with pagesL := gs.pagesL.dropLast,
                            usedSize := gs.usedSize - usedOfGet gs poff }
                  (acc ++ [poff]) : TRes) := rfl

theorem truncPagesLoop_of_le (size f i : ℕ) (t : PTab) (gs : GState)
    (acc : List ℕ) (hle : gs.usedSize ≤ size) :
    truncPagesLoop size (f + 1) i t gs acc = .ok false acc t gs := by
  simp only [truncPagesLoop, if_pos hle]

/-- The height-0 loop of `recursiveTruncate` satisfies the truncation
contract when entered the way `recursiveTruncate` enters it: at slot
`len(childPages) - 1` with one iteration of fuel per slot plus one. -/
theorem truncPagesLoop_post (size : ℕ) :
    ∀ (n : ℕ) (t : PTab) (gs : GState) (pre acc : List ℕ),
    mapLen t.pages = n → wfT 0 t = true →
    consistB gs pre (leavesT 0 t) = true →
    (0 < n ∨ gs.usedSize ≤ size) →
    TPost 0 size t gs pre acc
      (truncPagesLoop size (n + 1) ((n + (U64 - 1)) % U64) t gs acc) := by
  intro n
  induction n using Nat.strong_induction_on with
  | _ n ih =>
  intro t gs pre acc hn hwf hcons hne
  have hwf0 := hwf
  have hcons0 := hcons
  simp only [wfT, Bool.and_eq_true, decide_eq_true_eq] at hwf
  obtain ⟨⟨⟨⟨hh0, hd⟩, hkn⟩, hlF⟩, hte⟩ := hwf
  simp only [consistB, Bool.and_eq_true, decide_eq_true_eq] at hcons
  obtain ⟨⟨⟨hpl, hsum⟩, hnd⟩, hknd⟩ := hcons
  by_cases hle : gs.usedSize ≤ size
  · rw [truncPagesLoop_succ, if_pos hle]
    exact ⟨false, [], t, gs, (leavesT 0 t).length,
      by rw [List.append_nil],
      (List.take_length _).symm,
      hcons0, rfl, rfl, rfl, hwf0,
      fun _ => ⟨hle, fun h => h⟩,
      fun hc => absurd hc (by decide),
      fun hc => absurd hc (by omega),
      fun _ => ⟨rfl, rfl, rfl, rfl⟩⟩
  · have hn0 : 0 < n := hne.resolve_right hle
    obtain ⟨m, rfl⟩ : ∃ m, n = m + 1 := ⟨n - 1, by omega⟩
    have h504 : m + 1 ≤ 504 := by
      rw [hn] at hlF
      simpa [numPageEntries] using hlF
    rw [wrap_pred (m + 1) (by omega) (by rw [hU64]; omega)]
    simp only [Nat.add_sub_cancel]
    obtain ⟨poff, hget, hsplit⟩ := slotVals_split hd hkn (by rw [hn]; omega)
    rw [hn] at hget hsplit
    simp only [Nat.add_sub_cancel] at hget hsplit
    rw [truncPagesLoop_succ, if_neg hle]
    simp only [hget]
    have hlvT : leavesT 0 t = slotVals t.pages := rfl
    have hlastL : gs.pagesL.getLast? = some poff := by
      rw [hpl, hlvT, hsplit, ← List.append_assoc]
      exact List.getLast?_concat _
    have hlastT : (leavesT 0 t).getLast? = some poff := by
      rw [hlvT, hsplit]
      exact List.getLast?_concat _
    have hmemT : poff ∈ gs.pagesL := by
      rw [hpl, hlvT, hsplit]
      simp
    have hpu : usedOfGet gs poff = (mapGet gs.usedOf poff).getD 0 := rfl
    by_cases hpart : gs.usedSize - size < usedOfGet gs poff
    · rw [if_pos hpart]
      rw [truncPagesLoop_of_le size m ((m + (U64 - 1)) % U64) t { gs with usedOf := mapSet gs.usedOf poff (usedOfGet gs poff - (gs.usedSize - size)), usedSize := gs.usedSize - (gs.usedSize - size) } acc (by show gs.usedSize - (gs.usedSize - size) ≤ size; omega)]
      have hadd := sumUsed_mapSet_mem gs.usedOf poff
        (usedOfGet gs poff - (gs.usedSize - size)) gs.pagesL hnd hmemT
      refine ⟨false, [], t, { gs with usedOf := mapSet gs.usedOf poff (usedOfGet gs poff - (gs.usedSize - size)), usedSize := gs.usedSize - (gs.usedSize - size) }, (leavesT 0 t).length,
        by rw [List.append_nil],
        (List.take_length _).symm,
        ?_, rfl, rfl, rfl, hwf0,
        fun _ => ⟨by show gs.usedSize - (gs.usedSize - size) ≤ size; omega, fun h => h⟩,
        fun hc => absurd hc (by decide),
        fun _ => ⟨by show size ≤ gs.usedSize - (gs.usedSize - size); omega, ?_⟩,
        fun hc => absurd hc hle⟩
      · simp only [consistB, Bool.and_eq_true, decide_eq_true_eq]
        exact ⟨⟨⟨hpl, by omega⟩, hnd⟩, keysNodupB_mapSet _ _ _ hknd⟩
      · intro habs
        rw [hlastT] at habs
        simp only [Option.getD_some] at habs
        exact absurd habs (by omega)
    · rw [if_neg hpart]
      simp only [hlastL]
      rw [if_neg (show ¬ poff ≠ poff from fun hc => hc rfl)]
      have hsomeP : (mapGet t.pages m).isSome := by rw [hget]; rfl
      have hlenDel : mapLen (mapDel t.pages m) = m := by
        have h2 := mapLen_mapDel hkn hsomeP
        rw [hn] at h2
        simpa using h2
      have hplC : gs.pagesL = (pre ++ slotVals (mapDel t.pages m)) ++ [poff] := by
        rw [hpl, hlvT, hsplit, ← List.append_assoc]
      have hdropC : gs.pagesL.dropLast = pre ++ slotVals (mapDel t.pages m) := by
        rw [hplC]
        exact List.dropLast_concat
      have hsumC : gs.usedSize =
          sumUsed gs.usedOf (pre ++ slotVals (mapDel t.pages m)) +
            (mapGet gs.usedOf poff).getD 0 := by
        rw [hplC, sumUsed_append, sumUsed_single] at hsum
        exact hsum
      have hndC : (pre ++ slotVals (mapDel t.pages m)).Nodup :=
        (List.sublist_append_left _ _).nodup (hplC ▸ hnd)
      by_cases hm0 : mapLen (mapDel t.pages m) = 0
      · rw [if_pos hm0]
        have hdel : mapDel t.pages m = [] := by
          simp only [mapLen] at hm0
          exact List.length_eq_zero.mp hm0
        have hlv2 : leavesT 0 (PTab.mk t.ppOff t.height t.tabs (mapDel t.pages m)) = [] := by
          show slotVals (mapDel t.pages m) = []
          rw [hdel]
          rfl
        refine ⟨true, [poff], _, _, 0, rfl, ?_, ?_, rfl, rfl, rfl, ?_,
          fun hc => absurd hc (by decide),
          fun _ => hlv2,
          fun _ => ⟨by show size ≤ gs.usedSize - usedOfGet gs poff; omega, ?_⟩,
          fun hc => absurd hc hle⟩
        · rw [List.take_zero]
          exact hlv2
        · simp only [consistB, Bool.and_eq_true, decide_eq_true_eq, hlv2]
          refine ⟨⟨⟨?_, ?_⟩, ?_⟩, hknd⟩
          · rw [List.append_nil]
            show gs.pagesL.dropLast = pre
            rw [hdropC, hdel]
            simp [slotVals, mapLen]
          · show gs.usedSize - usedOfGet gs poff = sumUsed gs.usedOf gs.pagesL.dropLast
            rw [hdropC]
            omega
          · show gs.pagesL.dropLast.Nodup
            rw [hdropC]
            exact hndC
        · simp only [wfT, Bool.and_eq_true, decide_eq_true_eq]
          refine ⟨⟨⟨⟨hh0, ?_⟩, ?_⟩, ?_⟩, hte⟩
          · rw [hdel]
            rfl
          · exact keysNodupB_mapDel hkn m
          · show mapLen (mapDel t.pages m) ≤ numPageEntries
            simp only [numPageEntries]
            omega
        · rw [hlastT]
          exact fun _ => rfl
      · rw [if_neg hm0]
        have hm1 : 0 < m := by omega
        have hwf2 : wfT 0 (PTab.mk t.ppOff t.height t.tabs (mapDel t.pages m)) = true := by
          simp only [wfT, Bool.and_eq_true, decide_eq_true_eq]
          refine ⟨⟨⟨⟨hh0, ?_⟩, keysNodupB_mapDel hkn m⟩, ?_⟩, hte⟩
          · have h2 := denseB_mapDel_top hd hkn (by rw [hn]; omega)
            rw [hn] at h2
            simpa using h2
          · show mapLen (mapDel t.pages m) ≤ numPageEntries
            simp only [numPageEntries]
            omega
        have hcons2 : consistB { gs with pagesL := gs.pagesL.dropLast, usedSize := gs.usedSize - usedOfGet gs poff } pre (leavesT 0 (PTab.mk t.ppOff t.height t.tabs (mapDel t.pages m))) = true := by
          simp only [consistB, Bool.and_eq_true, decide_eq_true_eq]
          refine ⟨⟨⟨?_, ?_⟩, ?_⟩, hknd⟩
          · show gs.pagesL.dropLast = pre ++ slotVals (mapDel t.pages m)
            exact hdropC
          · show gs.usedSize - usedOfGet gs poff =
              sumUsed gs.usedOf gs.pagesL.dropLast
            rw [hdropC]
            omega
          · show gs.pagesL.dropLast.Nodup
            rw [hdropC]
            exact hndC
        have hrec := ih m (by omega)
          (PTab.mk t.ppOff t.height t.tabs (mapDel t.pages m))
          { gs with pagesL := gs.pagesL.dropLast, usedSize := gs.usedSize - usedOfGet gs poff }
          pre (acc ++ [poff]) hlenDel hwf2 hcons2 (Or.inl hm1)
        obtain ⟨e, fr2, c2, gs2, k2, hr, htake, hcons3, hpp, hht2, hna,
          hwf3, hef, het, hlt2, hle2⟩ := hrec
        obtain ⟨k, hk⟩ : ∃ k, (slotVals (mapDel t.pages m)).take k2 =
            (leavesT 0 t).take k := by
          rw [hlvT, hsplit]
          by_cases hkle : k2 ≤ (slotVals (mapDel t.pages m)).length
          · refine ⟨k2, ?_⟩
            rw [List.take_append_eq_append_take, Nat.sub_eq_zero_of_le hkle,
              List.take_zero, List.append_nil]
          · refine ⟨(slotVals (mapDel t.pages m)).length, ?_⟩
            rw [List.take_of_length_le (by omega), List.take_left]
        refine ⟨e, poff :: fr2, c2, gs2, k, ?_, htake.trans hk, hcons3,
          hpp, hht2, hna, hwf3, ?_, het, ?_, fun hc => absurd hc hle⟩
        · rw [hr, List.append_assoc, List.singleton_append]
        · intro hc
          refine ⟨(hef hc).1, fun _ => (hef hc).2 (neTab_of_pages ?_)⟩
          show 0 < mapLen (mapDel t.pages m)
          omega
        · intro _
          constructor
          · by_cases hc2 : size < gs.usedSize - usedOfGet gs poff
            · exact (hlt2 hc2).1
            · obtain ⟨h1, h2, h3, hgseq⟩ := hle2
                ((by omega : gs.usedSize - usedOfGet gs poff ≤ size))
              rw [hgseq]
              show size ≤ gs.usedSize - usedOfGet gs poff
              omega
          · intro _
            rw [hlastT]
            rfl

theorem neTab_of_tabs {t : PTab} (h : 0 < mapLen t.tabs) : neTab t = true := by
  simp only [neTab, decide_eq_true_eq]
  omega

theorem mapLen_mapSet_present {α : Type} {m : List (ℕ × α)} {k : ℕ}
    (hk : (mapGet m k).isSome) (v : α) : mapLen (mapSet m k v) = mapLen m := by
  rw [mapSet, if_pos hk]
  simp [mapLen]

theorem denseB_mapSet_present {α : Type} {m : List (ℕ × α)} {k : ℕ}
    (hd : denseB m = true) (hk : (mapGet m k).isSome) (v : α) :
    denseB (mapSet m k v) = true := by
  simp only [denseB, List.all_eq_true, decide_eq_true_eq] at hd ⊢
  intro kv hkv
  rw [mapLen_mapSet_present hk v]
  rw [mapSet, if_pos hk] at hkv
  rcases List.mem_map.mp hkv with ⟨kv0, hkv0, hrep⟩
  by_cases hc : kv0.1 = k
  · rw [if_pos hc] at hrep
    rw [← hrep]
    show k < mapLen m
    rw [← hc]
    exact hd kv0 hkv0
  · rw [if_neg hc] at hrep
    rw [← hrep]
    exact hd kv0 hkv0

theorem slotVals_mapSet_top {α : Type} {m : List (ℕ × α)} (hd : denseB m = true)
    (hn : keysNodupB m = true) (h0 : 0 < mapLen m) (v : α) :
    slotVals (mapSet m (mapLen m - 1) v) =
      slotVals (mapDel m (mapLen m - 1)) ++ [v] := by
  have hk : (mapGet m (mapLen m - 1)).isSome := dense_isSome hd hn (by omega)
  rw [slotVals, slotVals, mapLen_mapSet_present hk v, mapLen_mapDel hn hk]
  have hr : List.range (mapLen m) = List.range (mapLen m - 1) ++ [mapLen m - 1] := by
    conv_lhs => rw [show mapLen m = (mapLen m - 1) + 1 by omega]
    rw [List.range_succ]
  rw [hr, List.filterMap_append]
  congr 1
  · apply List.filterMap_congr
    intro i hi
    rw [mapGet_mapSet, mapGet_mapDel, if_neg (by simp at hi; omega),
      if_neg (by simp at hi; omega)]
  · simp [mapGet_mapSet]

theorem take_append_choice {α : Type} (A B : List α) (k2 : ℕ) :
    ∃ k, A.take k2 = (A ++ B).take k := by
  by_cases hk : k2 ≤ A.length
  · exact ⟨k2, by rw [List.take_append_eq_append_take, Nat.sub_eq_zero_of_le hk,
      List.take_zero, List.append_nil]⟩
  · exact ⟨A.length, by rw [List.take_of_length_le (by omega), List.take_left]⟩

theorem head_append_of_head {α : Type} {fr : List α} {x : α} (l : List α)
    (h : fr.head? = some x) : (fr ++ l).head? = some x := by
  cases fr with
  | nil => simp at h
  | cons a tl => simpa using h

/-- A well-formed non-empty subtree holds at least one data page. -/
theorem leavesT_ne_nil : ∀ (h : ℕ) (t : PTab), wfT h t = true → neTab t = true →
    leavesT h t ≠ [] := by
  intro h
  induction h with
  | zero =>
    intro t hwf hne
    simp only [wfT, Bool.and_eq_true, decide_eq_true_eq] at hwf
    obtain ⟨⟨⟨⟨hh0, hd⟩, hkn⟩, hlF⟩, hte⟩ := hwf
    simp only [neTab, decide_eq_true_eq] at hne
    have h0 : 0 < mapLen t.pages := by
      simp only [List.isEmpty_iff] at hte
      simp only [mapLen] at hne ⊢
      rw [hte] at hne
      simpa using hne
    obtain ⟨v, hv⟩ := Option.isSome_iff_exists.mp (dense_isSome hd hkn h0)
    have hm : v ∈ slotVals t.pages := mem_slotVals_of_mapGet h0 hv
    intro hc
    rw [show leavesT 0 t = slotVals t.pages from rfl] at hc
    rw [hc] at hm
    exact (List.not_mem_nil v) hm
  | succ h ih =>
    intro t hwf hne
    simp only [wfT, Bool.and_eq_true, decide_eq_true_eq, List.all_eq_true] at hwf
    obtain ⟨⟨⟨⟨⟨hht, hd⟩, hkn⟩, hlF⟩, hpe⟩, hall⟩ := hwf
    simp only [neTab, decide_eq_true_eq] at hne
    have h0 : 0 < mapLen t.tabs := by
      simp only [List.isEmpty_iff] at hpe
      simp only [mapLen] at hne ⊢
      rw [hpe] at hne
      simpa using hne
    obtain ⟨c0, hc0⟩ := Option.isSome_iff_exists.mp (dense_isSome hd hkn h0)
    have hm : c0 ∈ slotVals t.tabs := mem_slotVals_of_mapGet h0 hc0
    have hc0w := hall c0 hm
    intro hc
    rw [show leavesT (h + 1) t = (slotVals t.tabs).flatMap (leavesT h) from rfl,
      List.flatMap_eq_nil_iff] at hc
    exact ih c0 hc0w.1 hc0w.2 (hc c0 hm)

theorem truncTabsWith_succ (rec : PTab → GState → TRes) (size f i : ℕ)
    (t : PTab) (gs : GState) (acc : List ℕ) :
    truncTabsWith rec size (f + 1) i t gs acc =
    (if gs.usedSize ≤ size then .ok false acc t gs
    else
      match mapGet t.tabs i with
      | none => .panicSlot
      | some c =>
        match rec c gs with
        | .ok true fr c2 gs2 =>
          if denseB (mapDel t.tabs i) then
            if mapLen (mapDel t.tabs i) = 0 then
              .ok true (acc ++ fr ++ [c2.ppOff])
                (PTab.mk t.ppOff t.height (mapDel t.tabs i) t.pages) gs2
            else
              truncTabsWith rec size f ((i + (U64 - 1)) % U64)
                (PTab.mk t.ppOff t.height (mapDel t.tabs i) t.pages) gs2
                (acc ++ fr ++ [c2.ppOff])
          else .panicSlot
        | .ok false fr c2 gs2 =>
          truncTabsWith rec size f ((i + (U64 - 1)) % U64)
            (PTab.mk t.ppOff t.height (mapSet t.tabs i c2) t.pages) gs2 (acc ++ fr)
        | r => r : TRes) := rfl

theorem truncTabsWith_of_le (rec : PTab → GState → TRes) (size f i : ℕ)
    (t : PTab) (gs : GState) (acc : List ℕ) (hle : gs.usedSize ≤ size) :
    truncTabsWith rec size (f + 1) i t gs acc = .ok false acc t gs := by
  rw [truncTabsWith_succ, if_pos hle]

/-- The interior loop of `recursiveTruncate` satisfies the truncation
contract when every recursive call on a child does. -/
theorem truncTabsLoop_post (size h : ℕ) (rec : PTab → GState → TRes)
    (hrec : ∀ (c : PTab) (gs : GState) (pre : List ℕ),
      wfT h c = true → consistB gs pre (leavesT h c) = true → neTab c = true →
      TPost h size c gs pre [] (rec c gs)) :
    ∀ (n : ℕ) (t : PTab) (gs : GState) (pre acc : List ℕ),
    mapLen t.tabs = n → wfT (h + 1) t = true →
    consistB gs pre (leavesT (h + 1) t) = true →
    (0 < n ∨ gs.usedSize ≤ size) →
    TPost (h + 1) size t gs pre acc
      (truncTabsWith rec size (n + 1) ((n + (U64 - 1)) % U64) t gs acc) := by
  intro n
  induction n using Nat.strong_induction_on with
  | _ n ih =>
  intro t gs pre acc hn hwf hcons hne
  have hwf0 := hwf
  have hcons0 := hcons
  simp only [wfT, Bool.and_eq_true, decide_eq_true_eq, List.all_eq_true] at hwf
  obtain ⟨⟨⟨⟨⟨hht, hd⟩, hkn⟩, hlF⟩, hpe⟩, hall⟩ := hwf
  simp only [consistB, Bool.and_eq_true, decide_eq_true_eq] at hcons
  obtain ⟨⟨⟨hpl, hsum⟩, hnd⟩, hknd⟩ := hcons
  by_cases hle : gs.usedSize ≤ size
  · rw [truncTabsWith_succ, if_pos hle]
    exact ⟨false, [], t, gs, (leavesT (h + 1) t).length,
      by rw [List.append_nil],
      (List.take_length _).symm,
      hcons0, rfl, rfl, rfl, hwf0,
      fun _ => ⟨hle, fun hx => hx⟩,
      fun hc => absurd hc (by decide),
      fun hc => absurd hc (by omega),
      fun _ => ⟨rfl, rfl, rfl, rfl⟩⟩
  · have hn0 : 0 < n := hne.resolve_right hle
    obtain ⟨m, rfl⟩ : ∃ m, n = m + 1 := ⟨n - 1, by omega⟩
    have h504 : m + 1 ≤ 504 := by
      rw [hn] at hlF
      simpa [numPageEntries] using hlF
    rw [wrap_pred (m + 1) (by omega) (by rw [hU64]; omega)]
    simp only [Nat.add_sub_cancel]
    have h0' : 0 < mapLen t.tabs := by omega
    obtain ⟨c, hget, hsplit⟩ := slotVals_split hd hkn h0'
    rw [hn] at hget hsplit
    simp only [Nat.add_sub_cancel] at hget hsplit
    have hksome : (mapGet t.tabs m).isSome := by rw [hget]; rfl
    rw [truncTabsWith_succ, if_neg hle]
    simp only [hget]
    have hlvP : leavesT (h + 1) t =
        (slotVals (mapDel t.tabs m)).flatMap (leavesT h) ++ leavesT h c := by
      show (slotVals t.tabs).flatMap (leavesT h) = _
      rw [hsplit, List.flatMap_append]
      simp
    have hmemC : c ∈ slotVals t.tabs := by
      rw [hsplit]
      simp
    have hcw := hall c hmemC
    have hlvCne : leavesT h c ≠ [] := leavesT_ne_nil h c hcw.1 hcw.2
    obtain ⟨x, hx⟩ := Option.isSome_iff_exists.mp
      (List.getLast?_isSome.mpr hlvCne)
    have hlastP : (leavesT (h + 1) t).getLast? = (leavesT h c).getLast? := by
      rw [hlvP]
      exact List.getLast?_append_of_ne_nil _ hlvCne
    have hconsC : consistB gs
        (pre ++ (slotVals (mapDel t.tabs m)).flatMap (leavesT h))
        (leavesT h c) = true := by
      simp only [consistB, Bool.and_eq_true, decide_eq_true_eq]
      exact ⟨⟨⟨by rw [hpl, hlvP, ← List.append_assoc], hsum⟩, hnd⟩, hknd⟩
    obtain ⟨e, fr, c2, gs2, k2, hr, htake, hcons2, hpp, hht2, hna, hwf2,
      hef, het, hlt2, hle2⟩ := hrec c gs _ hcw.1 hconsC hcw.2
    simp only [List.nil_append] at hr
    have hdd : denseB (mapDel t.tabs m) = true := by
      have h2 := denseB_mapDel_top hd hkn h0'
      rw [hn] at h2
      simpa using h2
    have hld : mapLen (mapDel t.tabs m) = m := by
      have h2 := mapLen_mapDel hkn hksome
      rw [hn] at h2
      simpa using h2
    cases e with
    | true =>
      simp only [hr]
      rw [if_pos hdd]
      have hlvC2 : leavesT h c2 = [] := het rfl
      simp only [consistB, Bool.and_eq_true, decide_eq_true_eq] at hcons2
      obtain ⟨⟨⟨hpl2, hsum2⟩, hnd2⟩, hknd2⟩ := hcons2
      rw [hlvC2, List.append_nil] at hpl2
      by_cases hm0 : mapLen (mapDel t.tabs m) = 0
      · rw [if_pos hm0]
        have hdel : mapDel t.tabs m = [] := by
          simp only [mapLen] at hm0
          exact List.length_eq_zero.mp hm0
        have hlv2 : leavesT (h + 1)
            (PTab.mk t.ppOff t.height (mapDel t.tabs m) t.pages) = [] := by
          show (slotVals (mapDel t.tabs m)).flatMap (leavesT h) = []
          rw [hdel]
          rfl
        have hA : (slotVals (mapDel t.tabs m)).flatMap (leavesT h) = [] := by
          rw [hdel]
          rfl
        refine ⟨true, fr ++ [c2.ppOff],
          PTab.mk t.ppOff t.height (mapDel t.tabs m) t.pages, gs2, 0,
          by rw [← List.append_assoc], ?_, ?_, rfl, rfl, hna, ?_,
          fun hc => absurd hc (by decide), fun _ => hlv2, ?_,
          fun hc => absurd hc hle⟩
        · rw [List.take_zero]
          exact hlv2
        · simp only [consistB, Bool.and_eq_true, decide_eq_true_eq, hlv2,
            List.append_nil]
          rw [hA, List.append_nil] at hpl2
          exact ⟨⟨⟨hpl2, hsum2⟩, hnd2⟩, hknd2⟩
        · simp only [wfT, Bool.and_eq_true, decide_eq_true_eq, List.all_eq_true]
          refine ⟨⟨⟨⟨⟨hht, hdd⟩, keysNodupB_mapDel hkn m⟩, ?_⟩, hpe⟩, ?_⟩
          · show mapLen (mapDel t.tabs m) ≤ numPageEntries
            simp only [numPageEntries]
            omega
          · intro y hy
            have hy2 : y ∈ slotVals (mapDel t.tabs m) := hy
            rw [show slotVals (mapDel t.tabs m) = [] from by rw [hdel]; rfl] at hy2
            exact absurd hy2 (List.not_mem_nil y)
        · intro hgt'
          refine ⟨(hlt2 hgt').1, ?_⟩
          intro hcond
          rw [hlastP] at hcond
          have hh2 := (hlt2 hgt').2 hcond
          rw [hx] at hh2
          rw [hlastP, hx]
          exact head_append_of_head [c2.ppOff] hh2
      · rw [if_neg hm0]
        have hm1 : 0 < m := by omega
        have hwf2' : wfT (h + 1)
            (PTab.mk t.ppOff t.height (mapDel t.tabs m) t.pages) = true := by
          simp only [wfT, Bool.and_eq_true, decide_eq_true_eq, List.all_eq_true]
          refine ⟨⟨⟨⟨⟨hht, hdd⟩, keysNodupB_mapDel hkn m⟩, ?_⟩, hpe⟩, ?_⟩
          · show mapLen (mapDel t.tabs m) ≤ numPageEntries
            simp only [numPageEntries]
            omega
          · intro y hy
            have hy2 : y ∈ slotVals (mapDel t.tabs m) := hy
            refine hall y ?_
            rw [hsplit]
            exact List.mem_append_left _ hy2
        have hcons2' : consistB gs2 pre (leavesT (h + 1)
            (PTab.mk t.ppOff t.height (mapDel t.tabs m) t.pages)) = true := by
          simp only [consistB, Bool.and_eq_true, decide_eq_true_eq]
          exact ⟨⟨⟨hpl2, hsum2⟩, hnd2⟩, hknd2⟩
        obtain ⟨e3, fr3, c3, gs3, k3, hr3, htake3, hcons33, hpp3, hht3, hna3,
          hwf33, hef3, het3, hlt3, hle3⟩ :=
          ih m (by omega) (PTab.mk t.ppOff t.height (mapDel t.tabs m) t.pages)
            gs2 pre (acc ++ fr ++ [c2.ppOff]) hld hwf2' hcons2' (Or.inl hm1)
        obtain ⟨k, hk⟩ := take_append_choice
          ((slotVals (mapDel t.tabs m)).flatMap (leavesT h)) (leavesT h c) k3
        refine ⟨e3, fr ++ [c2.ppOff] ++ fr3, c3, gs3, k, ?_, ?_, hcons33,
          hpp3, hht3, hna3.trans hna, hwf33, ?_, het3, ?_,
          fun hc => absurd hc hle⟩
        · rw [hr3]
          simp only [List.append_assoc]
        · rw [hlvP]
          exact htake3.trans hk
        · intro hc
          refine ⟨(hef3 hc).1, fun _ => (hef3 hc).2 (neTab_of_tabs ?_)⟩
          show 0 < mapLen (mapDel t.tabs m)
          omega
        · intro hgt'
          constructor
          · by_cases hc2 : size < gs2.usedSize
            · exact (hlt3 hc2).1
            · obtain ⟨h1, h2, h3, hgseq⟩ := hle3 (by omega)
              rw [hgseq]
              exact (hlt2 hgt').1
          · intro hcond
            rw [hlastP] at hcond
            have hh2 := (hlt2 hgt').2 hcond
            rw [hx] at hh2
            rw [hlastP, hx]
            exact head_append_of_head fr3 (head_append_of_head [c2.ppOff] hh2)
    | false =>
      simp only [hr]
      have hused2 := hef rfl
      rw [truncTabsWith_of_le rec size m ((m + (U64 - 1)) % U64)
        (PTab.mk t.ppOff t.height (mapSet t.tabs m c2) t.pages) gs2 (acc ++ fr)
        hused2.1]
      have hsvSet : slotVals (mapSet t.tabs m c2) =
          slotVals (mapDel t.tabs m) ++ [c2] := by
        have h2 := slotVals_mapSet_top hd hkn h0' c2
        rw [hn] at h2
        simpa using h2
      have hlv2 : leavesT (h + 1)
          (PTab.mk t.ppOff t.height (mapSet t.tabs m c2) t.pages) =
          (slotVals (mapDel t.tabs m)).flatMap (leavesT h) ++ leavesT h c2 := by
        show (slotVals (mapSet t.tabs m c2)).flatMap (leavesT h) = _
        rw [hsvSet, List.flatMap_append]
        simp
      refine ⟨false, fr,
        PTab.mk t.ppOff t.height (mapSet t.tabs m c2) t.pages, gs2,
        ((slotVals (mapDel t.tabs m)).flatMap (leavesT h)).length + k2,
        rfl, ?_, ?_, rfl, rfl, hna, ?_,
        fun _ => ⟨hused2.1, fun _ => neTab_of_tabs ?_⟩,
        fun hc => absurd hc (by decide), ?_,
        fun hc => absurd hc hle⟩
      · rw [hlv2, htake, hlvP, List.take_append]
      · simp only [consistB, Bool.and_eq_true, decide_eq_true_eq] at hcons2 ⊢
        obtain ⟨⟨⟨hpl2, hsum2⟩, hnd2⟩, hknd2⟩ := hcons2
        refine ⟨⟨⟨?_, hsum2⟩, hnd2⟩, hknd2⟩
        rw [hlv2, hpl2, List.append_assoc]
      · simp only [wfT, Bool.and_eq_true, decide_eq_true_eq, List.all_eq_true]
        refine ⟨⟨⟨⟨⟨hht, denseB_mapSet_present hd hksome c2⟩,
          keysNodupB_mapSet t.tabs m c2 hkn⟩, ?_⟩, hpe⟩, ?_⟩
        · show mapLen (mapSet t.tabs m c2) ≤ numPageEntries
          rw [mapLen_mapSet_present hksome c2]
          exact hlF
        · intro y hy
          have hy2 : y ∈ slotVals (mapSet t.tabs m c2) := hy
          rw [hsvSet] at hy2
          rcases List.mem_append.mp hy2 with hy1 | hy3
          · refine hall y ?_
            rw [hsplit]
            exact List.mem_append_left _ hy1
          · rw [List.mem_singleton.mp hy3]
            exact ⟨hwf2, hused2.2 hcw.2⟩
      · show 0 < mapLen (mapSet t.tabs m c2)
        rw [mapLen_mapSet_present hksome c2]
        omega
      · intro hgt'
        refine ⟨(hlt2 hgt').1, ?_⟩
        intro hcond
        rw [hlastP] at hcond
        rw [hlastP]
        exact (hlt2 hgt').2 hcond

/-- `recursiveTruncate`, entered at the node's height with `len + 1`
iterations of fuel per level, satisfies the truncation contract on
well-formed trees. -/
theorem truncNodeGo_post (size : ℕ) :
    ∀ (h : ℕ) (t : PTab) (gs : GState) (pre : List ℕ),
    wfT h t = true → consistB gs pre (leavesT h t) = true →
    (neTab t = true ∨ gs.usedSize ≤ size) →
    TPost h size t gs pre [] (truncNodeGo size h t gs) := by
  intro h
  induction h with
  | zero =>
    intro t gs pre hwf hcons hne
    have hwf' := hwf
    simp only [wfT, Bool.and_eq_true, decide_eq_true_eq] at hwf'
    simp only [truncNodeGo]
    rw [if_neg (by rw [hwf'.1.1.1.1]; omega)]
    refine truncPagesLoop_post size (mapLen t.pages) t gs pre [] rfl hwf hcons ?_
    rcases hne with hne | hne
    · left
      simp only [neTab, decide_eq_true_eq] at hne
      have hte := hwf'.2
      simp only [List.isEmpty_iff] at hte
      simp only [mapLen] at hne ⊢
      rw [hte] at hne
      simpa using hne
    · right
      exact hne
  | succ h ih =>
    intro t gs pre hwf hcons hne
    have hwf' := hwf
    simp only [wfT, Bool.and_eq_true, decide_eq_true_eq, List.all_eq_true] at hwf'
    simp only [truncNodeGo]
    rw [if_pos (by rw [hwf'.1.1.1.1.1]; omega)]
    refine truncTabsLoop_post size h (truncNodeGo size h)
      (fun c gs2 pre2 hwf2 hcons2 hne2 => ih c gs2 pre2 hwf2 hcons2 (Or.inl hne2))
      (mapLen t.tabs) t gs pre [] rfl hwf hcons ?_
    rcases hne with hne | hne
    · left
      simp only [neTab, decide_eq_true_eq] at hne
      have hpe := hwf'.1.2
      simp only [List.isEmpty_iff] at hpe
      simp only [mapLen] at hne ⊢
      rw [hpe] at hne
      simpa using hne
    · right
      exact hne

/-- C9.  On every well-formed tree (dense duplicate-free prefix child slots,
`pages` slice and `usedSize` consistent with the tree's in-order data pages)
and for every target size, `recursiveTruncate` terminates within its fuel and
never dereferences an unpopulated child slot (no `.panicSlot`, no
`.panicSanity`, no `.nofuelT`), although its slot counters are unsigned and
wrap past zero after slot 0; the final `usedSize` is at most `size`, and when
`usedSize ≤ size` already holds the call returns immediately with nothing
freed and the tree and state unchanged. -/
theorem recursiveTruncate_safe (size h : ℕ) (t : PTab) (gs : GState)
    (hwf : wfT h t = true) (hcons : consistB gs [] (leavesT h t) = true)
    (hne : neTab t = true ∨ gs.usedSize ≤ size) :
    ∃ e fr t2 gs2, truncNode size t gs = TRes.ok e fr t2 gs2 ∧
      gs2.usedSize ≤ size ∧
      (gs.usedSize ≤ size → e = false ∧ fr = [] ∧ t2 = t ∧ gs2 = gs) := by
  have hwf' := hwf
  have hh : t.height = h := by
    cases h with
    | zero =>
      simp only [wfT, Bool.and_eq_true, decide_eq_true_eq] at hwf'
      exact hwf'.1.1.1.1
    | succ h =>
      simp only [wfT, Bool.and_eq_true, decide_eq_true_eq,
        List.all_eq_true] at hwf'
      exact hwf'.1.1.1.1.1
  obtain ⟨e, fr, t2, gs2, k, hr, htake, hcons2, _, _, _, _, hef, het, _,
    hlast⟩ := truncNodeGo_post size h t gs [] hwf hcons hne
  simp only [List.nil_append] at hr
  rw [truncNode, hh]
  refine ⟨e, fr, t2, gs2, hr, ?_, fun hle => hlast hle⟩
  cases e with
  | false => exact (hef rfl).1
  | true =>
    have hl := het rfl
    simp only [consistB, Bool.and_eq_true, decide_eq_true_eq] at hcons2
    rw [hl] at hcons2
    have hp2 : gs2.pagesL = [] := by simpa using hcons2.1.1.1
    have hu2 := hcons2.1.1.2
    rw [hp2] at hu2
    simp only [sumUsed, List.map_nil, List.sum_nil] at hu2
    omega

theorem recursiveTruncate_safe_witness :
    wfT 0 (PTab.mk 100 0 [] [(0, 4096), (1, 8192)]) = true ∧
    ∃ e fr t2 gs2,
      truncNode 5000 (PTab.mk 100 0 [] [(0, 4096), (1, 8192)])
        ⟨8192, [4096, 8192], [(4096, 4096), (8192, 4096)], 999⟩ =
        TRes.ok e fr t2 gs2 ∧
      gs2.usedSize ≤ 5000 ∧
      ((⟨8192, [4096, 8192], [(4096, 4096), (8192, 4096)], 999⟩ :
          GState).usedSize ≤ 5000 →
        e = false ∧ fr = [] ∧
        t2 = PTab.mk 100 0 [] [(0, 4096), (1, 8192)] ∧
        gs2 = ⟨8192, [4096, 8192], [(4096, 4096), (8192, 4096)], 999⟩) :=
  ⟨by decide, recursiveTruncate_safe 5000 0
    (PTab.mk 100 0 [] [(0, 4096), (1, 8192)])
    ⟨8192, [4096, 8192], [(4096, 4096), (8192, 4096)], 999⟩
    (by decide) (by decide) (Or.inl (by decide))⟩

/-! ### C10 amended: writes from beyond the end of a fully-paged entry -/

/-- The state after the write loop allocated one fresh page (appended empty,
`nextAlloc` advanced by one page). -/
def allocState (st : EState) : EState :=
  { st with epages := st.epages ++ [(⟨st.nextAlloc, 0⟩ : EPage)], nextAlloc := st.nextAlloc + pageSize }

/-- The state after one `physicalPage.writeAt` call of the write loop wrote
`ppWriteAt (len p - wc) co` bytes of `p` into page `pg` (slot `cp`) at
intra-page offset `co`. -/
def wroteState (st : EState) (pg : EPage) (p : Buf) (wc cp co : ℕ) : EState :=
  { st with disk := diskAfterWrite st.disk pg p wc co (ppWriteAt (p.len - wc) co), epages := st.epages.set cp ⟨pg.off, max pg.used (co + ppWriteAt (p.len - wc) co)⟩ }

theorem allocState_epages (st : EState) :
    (allocState st).epages = st.epages ++ [(⟨st.nextAlloc, 0⟩ : EPage)] := rfl

theorem allocState_usedSize (st : EState) :
    (allocState st).usedSize = st.usedSize := rfl

theorem wroteState_epages (st : EState) (pg : EPage) (p : Buf) (wc cp co : ℕ) :
    (wroteState st pg p wc cp co).epages =
      st.epages.set cp ⟨pg.off, max pg.used (co + ppWriteAt (p.len - wc) co)⟩ := rfl

theorem wroteState_usedSize (st : EState) (pg : EPage) (p : Buf) (wc cp co : ℕ) :
    (wroteState st pg p wc cp co).usedSize = st.usedSize := rfl

theorem writeGo_succ (p : Buf) (fuel : ℕ) (st : EState) (app : Bool)
    (bcp bco cp co : ℕ) (btw : ℤ) (wc byteInc added : ℕ) :
    writeGo p (fuel + 1) st app bcp bco cp co btw wc byteInc added =
    (if btw ≤ 0 then
      if byteInc = 0 then .ok p.len st cp co
      else if st.usedSize / pageSize + added ≠ st.epages.length then .panicAdd
      else .ok p.len { st with usedSize := st.usedSize + byteInc } cp co
    else if ¬ app ∧ (st.epages.length ≤ cp ∨
        (cp + 1 = st.epages.length ∧
          (co : ℤ) + btw > ((st.epages.getD cp ⟨0, 0⟩).used : ℤ))) then
      writeGo p fuel st true bcp bco bcp bco (p.len : ℤ) 0 0 0
    else if st.epages.length ≤ cp then
      if (allocState st).epages.length ≤ cp then
        writeGo p fuel { allocState st with epages := (allocState st).epages.dropLast ++ [(⟨st.nextAlloc, pageSize⟩ : EPage)] } app bcp bco cp co btw wc (byteInc + pageSize) (added + 1)
      else
        writeGo p fuel (allocState st) app bcp bco cp co btw wc byteInc (added + 1)
    else
      match st.epages[cp]? with
      | none => .nofuel
      | some pg =>
        match seekAux (wroteState st pg p wc cp co).epages.length cp co
            ((ppWriteAt (p.len - wc) co : ℕ) : ℤ) with
        | none => .nofuel
        | some (cp2, co2) =>
          writeGo p fuel (wroteState st pg p wc cp co)
            app bcp bco cp2 co2 (btw - ((ppWriteAt (p.len - wc) co : ℕ) : ℤ))
            (wc + ppWriteAt (p.len - wc) co)
            (byteInc + (max pg.used (co + ppWriteAt (p.len - wc) co) - pg.used))
            added : WRes) := rfl

/-- The cursor `seek(n)` produces from the start of the page at slot `cp` of
a `cp + 1`-page entry, for an intra-page count `n ≤ PAGE_SIZE`: the sentinel
when the page was filled exactly, the intra-page position otherwise. -/
theorem seekAux_sentinel_step (cp n : ℕ) (hn : n ≤ pageSize) :
    seekAux (cp + 1) cp 0 ((n : ℕ) : ℤ) =
      (if pageSize ≤ n then some (cp + 1, 0) else some (cp, n)) := by
  unfold seekAux
  rw [if_neg (by omega)]
  have ht : ((((cp * pageSize + 0 : ℕ) : ℤ) + ((n : ℕ) : ℤ)).toNat) =
      cp * pageSize + n := by
    omega
  rw [ht]
  by_cases hc : pageSize ≤ n
  · rw [if_pos hc]
    rw [if_pos (show cp + 1 ≤ (cp * pageSize + n) / pageSize by
      simp only [pageSize] at *
      omega)]
  · rw [if_neg hc]
    rw [if_neg (show ¬ cp + 1 ≤ (cp * pageSize + n) / pageSize by
      simp only [pageSize] at *
      omega)]
    have hdiv : (cp * pageSize + n) / pageSize = cp := by
      simp only [pageSize] at *
      omega
    have hmod : (cp * pageSize + n) % pageSize = n := by
      simp only [pageSize] at *
      omega
    rw [hdiv, hmod]

/-- The append run of the `Entry.write` loop: entered with the cursor at the
end-of-entry sentinel of a fully-paged entry (append mode already detected),
each round allocates one fresh page and fills it with the next chunk of `p`,
and the final `addPages` bookkeeping passes its sanity check, adding exactly
the bytes written to `usedSize` and `⌈len p / PAGE_SIZE⌉` pages. -/
theorem writeGo_append (p : Buf) (len0 : ℕ) :
    ∀ (rem : ℕ), 0 < rem → ∀ (f : ℕ), 2 * rem + 2 ≤ f →
    ∀ (st : EState) (bcp bco wc added : ℕ),
    st.usedSize = len0 * pageSize →
    st.epages.length = len0 + added →
    wc + rem = p.len →
    ∃ st2 cp2 co2,
      writeGo p f st true bcp bco st.epages.length 0 ((rem : ℕ) : ℤ) wc wc added =
        WRes.ok p.len st2 cp2 co2 ∧
      st2.usedSize = len0 * pageSize + p.len ∧
      st2.epages.length = len0 + added + (rem + pageSize - 1) / pageSize := by
  intro rem
  induction rem using Nat.strong_induction_on with
  | _ rem ih =>
  intro hrem f hf st bcp bco wc added hused hlen hwc
  obtain ⟨f1, rfl⟩ : ∃ f1, f = f1 + 1 := ⟨f - 1, by omega⟩
  obtain ⟨f2, rfl⟩ : ∃ f2, f1 = f2 + 1 := ⟨f1 - 1, by omega⟩
  rw [writeGo_succ]
  rw [if_neg (by omega)]
  rw [if_neg (by simp)]
  rw [if_pos (le_refl st.epages.length)]
  rw [if_neg (by rw [allocState_epages]; simp)]
  rw [writeGo_succ]
  rw [if_neg (by omega)]
  rw [if_neg (by simp)]
  rw [if_neg (by rw [allocState_epages]; simp)]
  have hget : (allocState st).epages[st.epages.length]? =
      some (⟨st.nextAlloc, 0⟩ : EPage) := by
    rw [allocState_epages]
    exact List.getElem?_concat_length _ _
  simp only [hget]
  have hsub : p.len - wc = rem := by omega
  have hpp : ppWriteAt rem 0 = min rem pageSize := by
    rw [ppWriteAt, Nat.sub_zero]
  simp only [hsub, hpp, Nat.zero_add, Nat.zero_max, Nat.sub_zero]
  have hWlen : (wroteState (allocState st) (⟨st.nextAlloc, 0⟩ : EPage) p wc
      st.epages.length 0).epages.length = st.epages.length + 1 := by
    rw [wroteState_epages, List.length_set, allocState_epages]
    simp
  have hWu : (wroteState (allocState st) (⟨st.nextAlloc, 0⟩ : EPage) p wc
      st.epages.length 0).usedSize = len0 * pageSize := by
    rw [wroteState_usedSize, allocState_usedSize]
    exact hused
  by_cases hbig : pageSize < rem
  · have hmin : min rem pageSize = pageSize := min_eq_right (by omega)
    simp only [hmin]
    have hseek : seekAux (wroteState (allocState st) (⟨st.nextAlloc, 0⟩ : EPage)
        p wc st.epages.length 0).epages.length st.epages.length 0
        ((pageSize : ℕ) : ℤ) = some (st.epages.length + 1, 0) := by
      rw [hWlen, seekAux_sentinel_step _ _ le_rfl, if_pos (le_refl pageSize)]
    simp only [hseek]
    have hbtw : ((rem : ℕ) : ℤ) - ((pageSize : ℕ) : ℤ) =
        (((rem - pageSize : ℕ) : ℕ) : ℤ) := by
      omega
    rw [hbtw, ← hWlen]
    obtain ⟨st4, c4, o4, heq, hu4, hl4⟩ := ih (rem - pageSize)
      (by simp only [pageSize] at *; omega)
      (by simp only [pageSize] at *; omega) f2
      (by simp only [pageSize] at hbig ⊢; omega)
      (wroteState (allocState st) (⟨st.nextAlloc, 0⟩ : EPage) p wc
        st.epages.length 0) bcp bco (wc + pageSize) (added + 1) hWu
      (by rw [hWlen, hlen]; omega)
      (by simp only [pageSize] at *; omega)
    rw [heq]
    refine ⟨st4, c4, o4, rfl, hu4, ?_⟩
    rw [hl4]
    simp only [pageSize] at hbig ⊢
    omega
  · have hmin : min rem pageSize = rem := min_eq_left (by omega)
    simp only [hmin]
    obtain ⟨f3, rfl⟩ : ∃ f3, f2 = f3 + 1 := ⟨f2 - 1, by omega⟩
    by_cases hfull2 : pageSize ≤ rem
    · have hseek : seekAux (wroteState (allocState st) (⟨st.nextAlloc, 0⟩ : EPage)
          p wc st.epages.length 0).epages.length st.epages.length 0
          ((rem : ℕ) : ℤ) = some (st.epages.length + 1, 0) := by
        rw [hWlen, seekAux_sentinel_step _ _ (by omega), if_pos hfull2]
      simp only [hseek]
      rw [writeGo_succ]
      rw [if_pos (by omega)]
      rw [if_neg (by omega)]
      rw [if_neg (by
        show ¬ ((wroteState (allocState st) (⟨st.nextAlloc, 0⟩ : EPage) p wc
            st.epages.length 0).usedSize / pageSize + (added + 1) ≠
          (wroteState (allocState st) (⟨st.nextAlloc, 0⟩ : EPage) p wc
            st.epages.length 0).epages.length)
        rw [hWu, hWlen, hlen]
        simp only [pageSize]
        omega)]
      refine ⟨_, st.epages.length + 1, 0, rfl, ?_, ?_⟩
      · show (wroteState (allocState st) (⟨st.nextAlloc, 0⟩ : EPage) p wc
            st.epages.length 0).usedSize + (wc + rem) = len0 * pageSize + p.len
        rw [hWu]
        omega
      · show (wroteState (allocState st) (⟨st.nextAlloc, 0⟩ : EPage) p wc
            st.epages.length 0).epages.length =
          len0 + added + (rem + pageSize - 1) / pageSize
        rw [hWlen, hlen]
        simp only [pageSize] at *
        omega
    · have hseek : seekAux (wroteState (allocState st) (⟨st.nextAlloc, 0⟩ : EPage)
          p wc st.epages.length 0).epages.length st.epages.length 0
          ((rem : ℕ) : ℤ) = some (st.epages.length, rem) := by
        rw [hWlen, seekAux_sentinel_step _ _ (by omega), if_neg hfull2]
      simp only [hseek]
      rw [writeGo_succ]
      rw [if_pos (by omega)]
      rw [if_neg (by omega)]
      rw [if_neg (by
        show ¬ ((wroteState (allocState st) (⟨st.nextAlloc, 0⟩ : EPage) p wc
            st.epages.length 0).usedSize / pageSize + (added + 1) ≠
          (wroteState (allocState st) (⟨st.nextAlloc, 0⟩ : EPage) p wc
            st.epages.length 0).epages.length)
        rw [hWu, hWlen, hlen]
        simp only [pageSize]
        omega)]
      refine ⟨_, st.epages.length, rem, rfl, ?_, ?_⟩
      · show (wroteState (allocState st) (⟨st.nextAlloc, 0⟩ : EPage) p wc
            st.epages.length 0).usedSize + (wc + rem) = len0 * pageSize + p.len
        rw [hWu]
        omega
      · show (wroteState (allocState st) (⟨st.nextAlloc, 0⟩ : EPage) p wc
            st.epages.length 0).epages.length =
          len0 + added + (rem + pageSize - 1) / pageSize
        rw [hWlen, hlen]
        simp only [pageSize] at *
        omega

/-- The per-page insertion loop of `entryPage.addPages` (tieredpage.go
74–90): each added page is inserted into the entry's page-table tree at the
next index; an insertion failure aborts the call (`write` then returns
`(0, err)` — no success result), and the insertion panics (`marshal` on a
gapped map, the full/gap sanity checks) propagate.  The descriptor writes
(`writeTieredPageEntry`) touch only the descriptor page and are not part of
the observable state. -/
def epInsertLoop : List EPage → (index : ℕ) → PTab → (na : ℕ) → IRes
  | [], _, root, na => .ok root na
  | pg :: rest, index, root, na =>
    match insertPageM root na index pg.off with
    | .ok root2 na2 => epInsertLoop rest (index + 1) root2 na2
    | r => r

/-- Result of `Entry.WriteAt` observing also the entry's page-table tree:
success carries the returned count, the entry state, the updated root and
allocator mark; the failure constructors keep `addPages`' length sanity
panic and the `insertPage` panics distinct. -/
inductive WTRes : Type where
  | ok (n : ℕ) (st : EState) (root : PTab) (na : ℕ) (cp co : ℕ)
  | panicAddW
  | panicInsW
  | negOffW
  | nofuelW

/-- `Entry.WriteAt` in full: the seek, the write loop and `addPages`'
zero-check, length sanity check and `usedSize` bump (`entryWriteAt`),
composed with `addPages`' per-page `insertPage` calls on the entry's tree.
The pages the loop appended are the tail of the final `pages` slice beyond
the original length (the append-restart happens before any allocation, so
every appended page is in `addedPages`), and they are inserted starting at
`nextIndex() = usedSize / PAGE_SIZE` of the pre-bump state. -/
def entryWriteAtT (root : PTab) (st : EState) (p : Buf) (off : ℤ) : WTRes :=
  match entryWriteAt st p off with
  | .ok n st2 cp co =>
    match epInsertLoop (st2.epages.drop st.epages.length)
        (st.usedSize / pageSize) root st2.nextAlloc with
    | .ok root2 na2 => .ok n st2 root2 na2 cp co
    | .panicGo => .panicInsW
    | .nofuelI => .nofuelW
  | .panicAdd => .panicAddW
  | .negOff => .negOffW
  | .nofuel => .nofuelW

theorem denseB_keys_lt {α : Type} {m : List (ℕ × α)} (hd : denseB m = true) :
    ∀ kv ∈ m, kv.1 < mapLen m := by
  intro kv hkv
  have h2 := List.all_eq_true.mp hd kv hkv
  simpa using h2

theorem mapGet_top_none {α : Type} {m : List (ℕ × α)} (hd : denseB m = true) :
    mapGet m (mapLen m) = none :=
  mapGet_none_of_keys (fun kv hkv => by have := denseB_keys_lt hd kv hkv; omega)

theorem mapLen_snoc {α : Type} (m : List (ℕ × α)) (kv : ℕ × α) :
    mapLen (m ++ [kv]) = mapLen m + 1 := by
  simp [mapLen]

theorem denseB_snoc {α : Type} {m : List (ℕ × α)} (hd : denseB m = true)
    (v : α) : denseB (m ++ [(mapLen m, v)]) = true := by
  simp only [denseB, List.all_eq_true, decide_eq_true_eq, mapLen_snoc]
  intro kv hkv
  rcases List.mem_append.mp hkv with h1 | h2
  · have := denseB_keys_lt hd kv h1
    omega
  · rw [List.mem_singleton] at h2
    rw [h2]
    show mapLen m < mapLen m + 1
    omega

theorem keysNodupB_snoc {α : Type} {m : List (ℕ × α)} (hd : denseB m = true)
    (hkn : keysNodupB m = true) (v : α) :
    keysNodupB (m ++ [(mapLen m, v)]) = true := by
  have h1 := keysNodupB_mapSet m (mapLen m) v hkn
  rwa [mapSet_of_none v (mapGet_top_none hd)] at h1

/-- One `insertPage` at the next index into a height-0 table with room:
growth stops immediately, both sanity checks pass, and the page lands in
the next slot, keeping the map a dense duplicate-free prefix. -/
theorem insert_step_h0 (o na n poff : ℕ) (m : List (ℕ × ℕ))
    (hd : denseB m = true) (hkn : keysNodupB m = true) (hlen : mapLen m = n)
    (hn : n < numPageEntries) :
    insertPageM (PTab.mk o 0 [] m) na n poff =
      IRes.ok (PTab.mk o 0 [] (m ++ [(n, poff)])) na := by
  have hF : numPageEntries = 504 := rfl
  have habs : mapGet m n = none := by
    rw [← hlen]
    exact mapGet_top_none hd
  have hset : mapSet m n poff = m ++ [(n, poff)] := mapSet_of_none poff habs
  have hgrow : growTree (n + 2) (PTab.mk o 0 [] m) na n =
      (PTab.mk o 0 [] m, na) := by
    show growTree (n + 1 + 1) _ _ _ = _
    rw [growTree]
    rw [if_pos]
    show n < maxPages 0
    rw [maxPages]
    simpa using hn
  rw [insertPageM, hgrow]
  show insertDescend ((PTab.mk o 0 [] m).height + 1) _ n n poff na = _
  rw [PTab.height, insertDescend]
  rw [if_neg (by simp [PTab.height])]
  rw [insertLeaf]
  have hlenp : mapLen (PTab.mk o 0 [] m).pages = n := by
    show mapLen m = n
    exact hlen
  rw [if_neg (by rw [hlenp]; omega)]
  have hgap : ¬ (0 < mapLen (PTab.mk o 0 [] m).pages ∧
      (mapGet (PTab.mk o 0 [] m).pages
        ((n % numPageEntries + (U64 - 1)) % U64)).isNone) := by
    rw [hlenp, PTab.pages]
    rcases Nat.eq_zero_or_pos n with h0 | h0
    · omega
    · have hkey : (n % numPageEntries + (U64 - 1)) % U64 = n - 1 := by
        rw [Nat.mod_eq_of_lt hn]
        have h1 : n + (U64 - 1) = (n - 1) + 1 * U64 := by rw [hU64]; omega
        rw [h1, Nat.add_mul_mod_self_right]
        exact Nat.mod_eq_of_lt (by rw [hU64]; omega)
      rw [hkey]
      obtain ⟨v, hv⟩ := Option.isSome_iff_exists.mp
        (dense_isSome hd hkn (show n - 1 < mapLen m by omega))
      simp [hv]
  rw [if_neg hgap]
  have hsl : mapSet (PTab.mk o 0 [] m).pages (n % numPageEntries) poff =
      m ++ [(n, poff)] := by
    rw [PTab.pages, Nat.mod_eq_of_lt (by omega), hset]
  rw [hsl]
  rw [if_pos (by
    rw [← hlen]
    exact denseB_snoc hd poff)]
  rfl

/-- The `addPages` insertion loop succeeds on a height-0 table with room
for all the added pages, extending the dense prefix in order. -/
theorem epInsertLoop_ok : ∀ (l : List EPage) (m : List (ℕ × ℕ)) (o na : ℕ),
    denseB m = true → keysNodupB m = true →
    mapLen m + l.length ≤ numPageEntries →
    ∃ m2, epInsertLoop l (mapLen m) (PTab.mk o 0 [] m) na =
        IRes.ok (PTab.mk o 0 [] m2) na ∧
      mapLen m2 = mapLen m + l.length ∧
      denseB m2 = true ∧ keysNodupB m2 = true := by
  intro l
  induction l with
  | nil =>
    intro m o na hd hkn _
    exact ⟨m, rfl, by simp, hd, hkn⟩
  | cons pg rest ih =>
    intro m o na hd hkn hle
    have hlt : mapLen m < numPageEntries := by
      simp only [List.length_cons] at hle
      omega
    simp only [epInsertLoop, insert_step_h0 o na (mapLen m) pg.off m hd hkn rfl hlt]
    obtain ⟨m2, heq, hl2, hd2, hk2⟩ := ih (m ++ [(mapLen m, pg.off)]) o na
      (denseB_snoc hd pg.off) (keysNodupB_snoc hd hkn pg.off)
      (by
        rw [mapLen_snoc]
        simp only [List.length_cons] at hle
        omega)
    refine ⟨m2, ?_, ?_, hd2, hk2⟩
    · rw [show mapLen m + 1 = mapLen (m ++ [(mapLen m, pg.off)]) from
        (mapLen_snoc m _).symm]
      exact heq
    · rw [hl2, mapLen_snoc]
      simp only [List.length_cons]
      omega

/-- C10 amended.  For every entry whose pages are exactly full
(`usedSize = len(pages) * PAGE_SIZE` — so the end-of-entry sentinel is the
real end of the data) and every offset strictly beyond the end, `WriteAt`
does not write at `off` and creates no gap: the internal seek clamps the
starting cursor to the sentinel `(len(pages), 0)` and the data is appended
at the current end; the call reports success with `n = len p` — `usedSize`
grows by exactly `len p` and exactly `⌈len p / PAGE_SIZE⌉` pages are
added — whenever the `insertPage` calls of the final `addPages` succeed on
the entry's tree, here established for an entry whose tree is a single
height-0 table with room for the added pages
(`len(pages) + ⌈len p / PAGE_SIZE⌉ ≤ FANOUT`).  Beyond that the insert path
itself can panic — an entry with exactly `FANOUT²` pages hits the C1
nil-dereference — and for an entry with a partial last page the original
claim fails outright; see the counterexample. -/
theorem writeAt_beyond_end_appends (root : PTab) (st : EState) (p : Buf)
    (off : ℤ)
    (hfull : st.usedSize = st.epages.length * pageSize)
    (hoff : (st.usedSize : ℤ) < off) (hp : 0 < p.len)
    (hwf : wfT 0 root = true)
    (hcount : mapLen root.pages = st.epages.length)
    (hroom : st.epages.length + (p.len + pageSize - 1) / pageSize ≤
      numPageEntries) :
    seekAux st.epages.length 0 0 off = some (st.epages.length, 0) ∧
    ∃ st2 root2 cp2 co2,
      entryWriteAtT root st p off = WTRes.ok p.len st2 root2 st2.nextAlloc cp2 co2 ∧
      st2.usedSize = st.usedSize + p.len ∧
      st2.epages.length = st.epages.length + (p.len + pageSize - 1) / pageSize ∧
      root2.height = 0 ∧ mapLen root2.pages = st2.epages.length := by
  have hclamp : seekAux st.epages.length 0 0 off =
      some (st.epages.length, 0) := by
    unfold seekAux
    rw [if_neg (by omega)]
    rw [if_pos (by
      rw [hfull] at hoff
      simp only [pageSize] at *
      omega)]
  refine ⟨hclamp, ?_⟩
  obtain ⟨st2, c2, o2, hEW, hu, hl⟩ :
      ∃ st2 c2 o2, entryWriteAt st p off = WRes.ok p.len st2 c2 o2 ∧
        st2.usedSize = st.usedSize + p.len ∧
        st2.epages.length = st.epages.length +
          (p.len + pageSize - 1) / pageSize := by
    simp only [entryWriteAt, hclamp, entryWrite]
    rw [show (2 * p.len + 4) = (2 * p.len + 3) + 1 from rfl]
    rw [writeGo_succ]
    rw [if_neg (by omega)]
    rw [if_pos (And.intro (by simp) (Or.inl (le_refl st.epages.length)))]
    obtain ⟨st2, c2, o2, heq, hu, hl⟩ := writeGo_append p st.epages.length p.len
      hp (2 * p.len + 3) (by omega) st st.epages.length 0 0 0 hfull (by omega)
      (by omega)
    rw [heq]
    exact ⟨st2, c2, o2, rfl, by rw [hu, hfull], by rw [hl]; omega⟩
  simp only [entryWriteAtT, hEW]
  cases root with
  | mk o hgt tb pg =>
  simp only [wfT, Bool.and_eq_true, decide_eq_true_eq] at hwf
  obtain ⟨⟨⟨⟨hh0, hd⟩, hkn⟩, hlF⟩, hte⟩ := hwf
  have htb : tb = [] := by simpa [List.isEmpty_iff] using hte
  subst htb
  subst hh0
  have hc2 : mapLen pg = st.epages.length := hcount
  have hidx : st.usedSize / pageSize = mapLen pg := by
    rw [hfull, ← hc2]
    simp only [pageSize]
    omega
  rw [hidx]
  have hdropLen : (st2.epages.drop st.epages.length).length =
      (p.len + pageSize - 1) / pageSize := by
    rw [List.length_drop, hl]
    simp only [pageSize]
    omega
  obtain ⟨m2, heqL, hl2, hd2, hk2⟩ := epInsertLoop_ok
    (st2.epages.drop st.epages.length) pg o st2.nextAlloc hd hkn
    (by rw [hdropLen, hc2]; exact hroom)
  simp only [heqL]
  refine ⟨st2, PTab.mk o 0 [] m2, c2, o2, rfl, hu, hl, rfl, ?_⟩
  show mapLen m2 = st2.epages.length
  rw [hl2, hdropLen, hc2, hl]

theorem writeAt_beyond_end_appends_witness :
    stTwoFull.usedSize = stTwoFull.epages.length * pageSize ∧
    (seekAux stTwoFull.epages.length 0 0 10000 =
        some (stTwoFull.epages.length, 0) ∧
     ∃ st2 root2 cp2 co2,
       entryWriteAtT (PTab.mk 500 0 [] [(0, 4096), (1, 8192)]) stTwoFull
         ⟨5, fun _ => 7⟩ 10000 =
         WTRes.ok (Buf.len ⟨5, fun _ => 7⟩) st2 root2 st2.nextAlloc cp2 co2 ∧
      st2.usedSize = stTwoFull.usedSize + Buf.len ⟨5, fun _ => 7⟩ ∧
      st2.epages.length = stTwoFull.epages.length +
        (Buf.len ⟨5, fun _ => 7⟩ + pageSize - 1) / pageSize ∧
      root2.height = 0 ∧ mapLen root2.pages = st2.epages.length) :=
  ⟨by decide, writeAt_beyond_end_appends (PTab.mk 500 0 [] [(0, 4096), (1, 8192)])
    stTwoFull ⟨5, fun _ => 7⟩ 10000 (by decide) (by decide) (by decide)
    (by decide) (by decide) (by decide)⟩

/-! ### C7 amended: the freePage mechanism and height-0 LIFO -/

theorem mapLen_slotMapN (n : ℕ) : mapLen (slotMapN n) = n := by
  simp [slotMapN, mapLen]

theorem mapDel_slotMapN (n : ℕ) : mapDel (slotMapN (n + 1)) n = slotMapN n := by
  rw [slotMapN_succ, mapDel, List.filter_append]
  have h1 : List.filter (fun kv => kv.1 ≠ n) (slotMapN n) = slotMapN n := by
    rw [List.filter_eq_self]
    intro kv hkv
    simp only [slotMapN, List.mem_map, List.mem_range] at hkv
    obtain ⟨i, hi, rfl⟩ := hkv
    simp
    omega
  have h2 : List.filter (fun kv => kv.1 ≠ n) [(n, pOff n)] = [] := by
    simp
  rw [h1, h2, List.append_nil]

theorem getLast_rangeMap (n : ℕ) :
    ((List.range (n + 1)).map pOff).getLast? = some (pOff n) := by
  rw [List.range_succ, List.map_append]
  exact List.getLast?_concat _

theorem dropLast_rangeMap (n : ℕ) :
    ((List.range (n + 1)).map pOff).dropLast = (List.range n).map pOff := by
  rw [List.range_succ, List.map_append]
  exact List.dropLast_concat

/-- The aliasing `usedSize` map while draining: the first `k` of the `N`
recycled pages are still full, the drained ones are zeroed (the deferred
`page.usedSize = 0` of each `freePage`). -/
def usedMapDrain (N k : ℕ) : List (ℕ × ℕ) :=
  (List.range N).map (fun i => (pOff i, if i < k then 4096 else 0))

theorem mapGet_usedMapDrain (k : ℕ) : ∀ (N j : ℕ),
    mapGet (usedMapDrain N k) (pOff j) =
      if j < N then some (if j < k then 4096 else 0) else none := by
  intro N
  induction N with
  | zero => intro j; simp [usedMapDrain, mapGet]
  | succ N ih =>
    intro j
    rw [usedMapDrain, List.range_succ, List.map_append, ← usedMapDrain]
    by_cases hj : j < N
    · have h1 : mapGet (usedMapDrain N k) (pOff j) =
          some (if j < k then 4096 else 0) := by rw [ih]; simp [hj]
      rw [mapGet_append_of_some _ h1]
      simp [Nat.lt_succ_of_lt hj]
    · have h1 : mapGet (usedMapDrain N k) (pOff j) = none := by rw [ih]; simp [hj]
      rw [mapGet_append_of_none _ h1]
      simp only [List.map_cons, List.map_nil, mapGet_cons]
      by_cases hNj : N = j
      · subst hNj
        simp [Nat.lt_succ_self]
      · have hpne : pOff N ≠ pOff j := by
          simp only [pOff]
          omega
        have : ¬ (j < N + 1) := by omega
        simp [hpne, this, mapGet]

theorem mapSet_usedMapDrain (N j : ℕ) (hj : j < N) :
    mapSet (usedMapDrain N (j + 1)) (pOff j) 0 = usedMapDrain N j := by
  have hsome : (mapGet (usedMapDrain N (j + 1)) (pOff j)).isSome := by
    rw [mapGet_usedMapDrain, if_pos hj]
    rfl
  rw [mapSet, if_pos hsome]
  rw [usedMapDrain, usedMapDrain, List.map_map]
  apply List.map_congr_left
  intro i hi
  simp only [List.mem_range] at hi
  simp only [Function.comp_apply]
  by_cases hc : i = j
  · subst hc
    rw [if_pos rfl]
    simp
  · have hpne : pOff i ≠ pOff j := by
      simp only [pOff]
      omega
    rw [if_neg hpne]
    by_cases h2 : i < j
    · rw [if_pos (by omega), if_pos h2]
    · rw [if_neg (by omega), if_neg h2]

theorem usedMapDrain_full (N : ℕ) : usedMapDrain N N = usedMapN N := by
  rw [usedMapDrain, usedMapN]
  apply List.map_congr_left
  intro i hi
  simp only [List.mem_range] at hi
  rw [if_pos hi]

/-- The pages handed out by `count` successive `freePage` calls. -/
def rpDrain : ℕ → RPState → Option (List ℕ)
  | 0, _ => some []
  | k + 1, st =>
    match freePageM st with
    | .ok p st2 => (rpDrain k st2).map (fun l => p :: l)
    | _ => none

/-- One `freePage` on a height-0 recycler with `j + 1` full pages left (of
`N` recycled in total): it hands back the most recently recycled live page
`pOff j`, truncating the tree by exactly that page, and buffers nothing. -/
theorem freePage_drain_step (N j : ℕ) (hj : j < N) (hN : N ≤ 504) :
    freePageM ⟨PTab.mk 0 0 [] (slotMapN (j + 1)),
      ⟨(j + 1) * 4096, (List.range (j + 1)).map pOff, usedMapDrain N (j + 1), 10000000⟩, []⟩ =
    FRes.ok (pOff j) ⟨PTab.mk 0 0 [] (slotMapN j),
      ⟨j * 4096, (List.range j).map pOff, usedMapDrain N j, 10000000⟩, []⟩ := by
  have husedof : usedOfGet ⟨(j + 1) * 4096, (List.range (j + 1)).map pOff,
      usedMapDrain N (j + 1), 10000000⟩ (pOff j) = 4096 := by
    rw [usedOfGet, mapGet_usedMapDrain, if_pos hj, if_pos (Nat.lt_succ_self j)]
    rfl
  have htr : ∃ e, truncNode ((j + 1) * 4096 - pageSize)
      (PTab.mk 0 0 [] (slotMapN (j + 1)))
      ⟨(j + 1) * 4096, (List.range (j + 1)).map pOff, usedMapDrain N (j + 1), 10000000⟩ =
      TRes.ok e [pOff j] (PTab.mk 0 0 [] (slotMapN j))
        ⟨j * 4096, (List.range j).map pOff, usedMapDrain N (j + 1), 10000000⟩ := by
    rw [truncNode]
    show ∃ e, truncNodeGo _ 0 _ _ = _
    simp only [truncNodeGo]
    rw [if_neg (by simp [PTab.height])]
    have hlen : mapLen (PTab.mk 0 0 [] (slotMapN (j + 1))).pages = j + 1 := by
      show mapLen (slotMapN (j + 1)) = j + 1
      exact mapLen_slotMapN (j + 1)
    rw [hlen]
    rw [wrap_pred (j + 1) (by omega) (by rw [hU64]; omega)]
    simp only [Nat.add_sub_cancel]
    rw [truncPagesLoop_succ]
    rw [if_neg (by
      show ¬ ((j + 1) * 4096 ≤ (j + 1) * 4096 - pageSize)
      simp only [pageSize]
      omega)]
    have hget : mapGet (PTab.mk 0 0 [] (slotMapN (j + 1))).pages j =
        some (pOff j) := by
      show mapGet (slotMapN (j + 1)) j = some (pOff j)
      rw [mapGet_slotMapN]
      simp
    simp only [hget]
    rw [if_neg (by
      rw [husedof]
      show ¬ ((j + 1) * 4096 - ((j + 1) * 4096 - pageSize) < 4096)
      simp only [pageSize]
      omega)]
    have hlast : ((List.range (j + 1)).map pOff).getLast? = some (pOff j) :=
      getLast_rangeMap j
    simp only [hlast]
    rw [if_neg (show ¬ pOff j ≠ pOff j from fun hc => hc rfl)]
    have hdel : mapDel (PTab.mk 0 0 [] (slotMapN (j + 1))).pages j = slotMapN j := by
      show mapDel (slotMapN (j + 1)) j = slotMapN j
      exact mapDel_slotMapN j
    rw [hdel]
    have harith : (j + 1) * 4096 - usedOfGet ⟨(j + 1) * 4096,
        (List.range (j + 1)).map pOff, usedMapDrain N (j + 1), 10000000⟩ (pOff j) =
        j * 4096 := by
      rw [husedof]
      omega
    by_cases hj0 : mapLen (slotMapN j) = 0
    · rw [if_pos hj0]
      refine ⟨true, ?_⟩
      rw [harith, dropLast_rangeMap]
      rfl
    · rw [if_neg hj0]
      have hjpos : 0 < j := by
        have := mapLen_slotMapN j
        omega
      obtain ⟨i, rfl⟩ : ∃ i, j = i + 1 := ⟨j - 1, by omega⟩
      rw [truncPagesLoop_of_le _ (i + 1) _ _ _ _ (by
        show (i + 1 + 1) * 4096 - usedOfGet _ (pOff (i + 1)) ≤
          (i + 1 + 1) * 4096 - pageSize
        rw [husedof]
        simp only [pageSize]
        omega)]
      refine ⟨false, ?_⟩
      rw [harith, dropLast_rangeMap]
      rfl
  obtain ⟨e, htr⟩ := htr
  have hdf : defragGo ((PTab.mk 0 0 [] (slotMapN j)).height + 1)
      (PTab.mk 0 0 [] (slotMapN j)) = DRes.ok (PTab.mk 0 0 [] (slotMapN j)) [] := by
    show defragGo (0 + 1) _ = _
    simp only [defragGo]
    rw [if_neg (by simp [PTab.height])]
  rw [freePageM]
  rw [if_neg (by
    show ¬ availablePages _ = 0
    simp [availablePages])]
  rw [if_neg (by simp)]
  have hlast2 : (⟨PTab.mk 0 0 [] (slotMapN (j + 1)),
      ⟨(j + 1) * 4096, (List.range (j + 1)).map pOff, usedMapDrain N (j + 1),
        10000000⟩, []⟩ : RPState).gs.pagesL.getLast? = some (pOff j) :=
    getLast_rangeMap j
  simp only [hlast2]
  simp only [htr]
  simp only [List.head?_cons]
  rw [if_neg (show ¬ pOff j ≠ pOff j from fun hc => hc rfl)]
  simp only [hdf]
  rw [mapSet_usedMapDrain N j hj]
  rfl

/-- Draining a height-0 recycler returns its pages newest-first. -/
theorem rpDrain_drainState (N : ℕ) (hN : N ≤ 504) :
    ∀ k, k ≤ N →
    rpDrain k ⟨PTab.mk 0 0 [] (slotMapN k),
      ⟨k * 4096, (List.range k).map pOff, usedMapDrain N k, 10000000⟩, []⟩ =
      some (((List.range k).map pOff).reverse) := by
  intro k
  induction k with
  | zero => intro _; rfl
  | succ j ih =>
    intro hk
    simp only [rpDrain, freePage_drain_step N j (by omega) hN]
    rw [ih (by omega)]
    rw [List.range_succ, List.map_append, List.reverse_append]
    rfl

/-- C7 amended.  `freePage` pops the tail of `pagesToFree` whenever that
buffer is non-empty, and only otherwise takes the last page of the
recycler's `pages` list, truncating the tree by exactly one page — so pages
freed to the buffer by earlier truncations and defrags (page-table node
pages) are returned before data pages, and the LIFO order `pN … p1` for
"free `p1 … pN`, then allocate `N`" is guaranteed exactly while no node
pages intervene: from an empty recycler that is `N ≤ FANOUT` (the tree stays
at height 0), and the 505-free counterexample shows it fails beyond. -/
theorem freePage_amended :
    (∀ (st : RPState) (x : ℕ), st.toFree.getLast? = some x →
      freePageM st = FRes.ok x { st with toFree := st.toFree.dropLast, gs := { st.gs with usedOf := mapSet st.gs.usedOf x 0 } }) ∧
    (∀ n : ℕ, n ≤ 504 →
      (rpSeq n).bind (rpDrain n) = some (((List.range n).map pOff).reverse)) := by
  constructor
  · intro st x hx
    have hne : st.toFree ≠ [] := by
      intro hc
      rw [hc] at hx
      simp at hx
    rw [freePageM]
    rw [if_neg (by
      show ¬ availablePages st = 0
      rw [availablePages]
      have := List.length_pos.mpr hne
      omega)]
    rw [if_pos (List.length_pos.mpr hne)]
    simp only [hx]
  · intro n hn
    rw [rpSeq_eq n hn]
    rw [Option.some_bind]
    show rpDrain n (rpStateN n) = _
    rw [rpStateN, show usedMapN n = usedMapDrain n n from (usedMapDrain_full n).symm]
    exact rpDrain_drainState n hn n le_rfl

theorem freePage_amended_witness :
    freePageM ⟨PTab.mk 0 0 [] [], ⟨0, [], [], 77⟩, [5555]⟩ =
      FRes.ok 5555 ⟨PTab.mk 0 0 [] [], ⟨0, [], [(5555, 0)], 77⟩, []⟩ ∧
    (rpSeq 2).bind (rpDrain 2) = some (((List.range 2).map pOff).reverse) :=
  ⟨freePage_amended.1 ⟨PTab.mk 0 0 [] [], ⟨0, [], [], 77⟩, [5555]⟩ 5555 (by decide),
   freePage_amended.2 2 (by decide)⟩

theorem entrySeek_spec_witness :
    (entrySeek stTenBytes 0 0 (-1) .start).1 = (0, 0) ∧
    (entrySeek stTenBytes 0 0 100 .start).1 = (0, 100) :=
  ⟨(entrySeek_spec stTenBytes 0 0 (-1) .start).2.1 (by decide),
   by
     have h := ((entrySeek_spec stTenBytes 0 0 100 .start).2.2 (by decide)).1
     rw [h]
     decide⟩

end Pages
